import Mathlib

/-!
# LSB steganography codec (`steg.go`)

A shallow embedding of the codec of `steg.go` and the properties of its
frame protocol.

Modelling conventions.

* A Go `[]byte` is a `List Nat`; `IsBytes` says that every element is below
  256 and `IsSlice` adds that the length is one a Go slice can have.  Byte
  arithmetic is done on `Nat`, with an explicit `% 256` where the Go
  expression can leave the 8-bit range (the left shift in `readOneChar`).
* Go `int` is the 64-bit signed integer.  Lengths and indices are `Nat`
  (they are never negative in this program) and the one subtraction that
  can go below zero, in the capacity check, is done in `Int`.
* A call either returns, panics, or (for the one unbounded loop of the
  program, which the model runs on fuel) runs out of fuel: `Outcome`.
  `readSecret_fuel_suffices` shows that the last case never happens.
* In-place mutation of the carrier is explicit state passing: a function
  that writes to `image` returns the new contents.  The contents at the
  moment of a panic of a writing function are not tracked.  The reading
  functions take the carrier as a plain argument; they are given a second
  time with the carrier threaded through as state (`DecodeSt`), to state
  that reading leaves the carrier as it was.
* `strconv.Itoa`, `strconv.Atoi`, `string(byte)` and `make` belong to Go and
  are modelled after their documented behaviour.
* Whether an allocation succeeds depends on the machine.  `readSecret` and
  `Decode` take a number `spare`: the allocator can grant `len(image) + spare`
  bytes, that is, a process that holds the carrier has room for as many bytes
  again, and `spare` is what the machine has beyond that.  A length that
  `makeslice` lets through and the allocator cannot grant ends the run with
  the fatal error "out of memory" (`Panic.outOfMemory`).
-/

namespace Steg

set_option maxRecDepth 100000

/-! ## Outcomes -/

/-- Abnormal ends of a run: the runtime panics the codec can raise, and the
fatal error of the allocator. -/
inductive Panic where
  /-- An index expression `image[i]` with `i` outside the slice. -/
  | indexOutOfRange
  /-- The panic "makeslice: len out of range" of `make([]byte, n)` for a
  negative `n` or one above `maxAlloc`. -/
  | makesliceLenOutOfRange
  /-- The fatal error "out of memory" of the allocator, for a length that
  `makeslice` lets through; it is not a panic a caller can recover from. -/
  | outOfMemory
  deriving DecidableEq, Repr

/-- The two error values built with `errors.New` in `steg.go`. -/
inductive StegError where
  /-- The error "image to small to hide message" of `writeSecret`. -/
  | imageTooSmall
  /-- The error "message in file incorrectly formatted or missing" of `readSecret`. -/
  | badFormat
  deriving DecidableEq, Repr

/-- Result of running a Go function: normal return, panic, or fuel exhausted. -/
inductive Outcome (α : Type) where
  | ok (a : α)
  | panic (p : Panic)
  | fuelOut
  deriving DecidableEq, Repr

/-! ## Inputs -/

/-- Every element is an 8-bit value. -/
def IsBytes (s : List Nat) : Prop := ∀ b ∈ s, b < 256

instance (s : List Nat) : Decidable (IsBytes s) := by
  unfold IsBytes; infer_instance

/-- Largest allocation of the Go runtime on a 64-bit platform
(`maxAlloc`, 48 address bits); no slice of bytes is longer. -/
def maxAlloc : Nat := 2 ^ 48

/-- A list that is the contents of a Go `[]byte`. -/
def IsSlice (s : List Nat) : Prop := s.length ≤ maxAlloc ∧ IsBytes s

instance (s : List Nat) : Decidable (IsSlice s) := by
  unfold IsSlice; infer_instance

/-! ## Bit-plane codec -/

/-- The loop `for j := 0; j < 4; j++` of `hideOneChar`, with `n` iterations
left: writes the two low bits of `ch` into `image[writeIndex]`, then moves
on with `ch >> 2`. -/
def hideOneCharLoop : Nat → Nat → Nat → List Nat → Outcome (List Nat)
  | 0, _, _, image => .ok image
  | n + 1, writeIndex, ch, image =>
    match image[writeIndex]? with
    | none => .panic .indexOutOfRange
    | some orig =>
      let origWithTwoSmallestBitsZero := orig &&& 252
      let twoSmallestBitsOfChar := ch &&& 3
      let byteWithHiddenBits := origWithTwoSmallestBitsZero ||| twoSmallestBitsOfChar
      hideOneCharLoop n (writeIndex + 1) (ch >>> 2) (image.set writeIndex byteWithHiddenBits)

/-- Go `hideOneChar(byteIndex, ch, image)`: returns the new contents of `image`. -/
def hideOneChar (byteIndex ch : Nat) (image : List Nat) : Outcome (List Nat) :=
  hideOneCharLoop 4 byteIndex ch image

/-- The loop `for j := 0; j < 4; j++` of `readOneChar`, with `n` iterations
left; the shift is a shift of a `byte`, hence `% 256`. -/
def readOneCharLoop (image : List Nat) : Nat → Nat → Nat → Nat → Outcome Nat
  | 0, _, _, char => .ok char
  | n + 1, j, readIndex, char =>
    match image[readIndex]? with
    | none => .panic .indexOutOfRange
    | some b =>
      let origWithSixBiggestBitsZero := b &&& 3
      let origWithRelevantBitsShifted := (origWithSixBiggestBitsZero <<< (j * 2)) % 256
      readOneCharLoop image n (j + 1) (readIndex + 1) (char ||| origWithRelevantBitsShifted)

/-- Go `readOneChar(byteIndex, image)`. -/
def readOneChar (byteIndex : Nat) (image : List Nat) : Outcome Nat :=
  readOneCharLoop image 4 0 byteIndex 0

/-! ## Standard library functions used by the frame protocol -/

/-- Digits of `strconv.Itoa`: the decimal digits of `n`, most significant
first, as ASCII codes, put in front of `acc`. -/
def itoaLoop : Nat → Nat → List Nat → List Nat
  | 0, _, acc => acc
  | fuel + 1, n, acc =>
    if n < 10 then (48 + n) :: acc
    else itoaLoop fuel (n / 10) ((48 + n % 10) :: acc)

/-- Go `strconv.Itoa` on a non-negative `int`, as the bytes of the string. -/
def Itoa (n : Nat) : List Nat := itoaLoop (n + 1) n []

/-- The digit loop of `strconv.Atoi`: `none` at the first byte that is not
an ASCII digit. -/
def atoiDigits : List Nat → Nat → Option Nat
  | [], n => some n
  | c :: cs, n => if 48 ≤ c ∧ c ≤ 57 then atoiDigits cs (n * 10 + (c - 48)) else none

/-- Go `strconv.Atoi` for the 64-bit `int`, on the bytes of the string;
`none` stands for a non-nil error (wrong form or out of range: `readSecret`
does not tell them apart).  One leading `+` (43) or `-` (45) is accepted. -/
def Atoi (s : List Nat) : Option Int :=
  match s with
  | [] => none
  | c :: t =>
    let neg := c = 45
    let digits := if c = 45 ∨ c = 43 then t else c :: t
    if digits = [] then none
    else
      match atoiDigits digits 0 with
      | none => none
      | some un =>
        if neg then (if un > 2 ^ 63 then none else some (-(un : Int)))
        else (if un ≥ 2 ^ 63 then none else some (un : Int))

/-- Go conversion `string(ch)` of a `byte`: the UTF-8 encoding of the code
point `ch`, one byte below 128 and two bytes from 128 on. -/
def byteToString (ch : Nat) : List Nat :=
  if ch < 128 then [ch] else [192 ||| (ch >>> 6), 128 ||| (ch &&& 63)]

/-- Go `make([]byte, length)` when the allocator can grant `avail` bytes:
`makeslice` panics on a negative length and on one above `maxAlloc`; a length
it lets through that the allocator cannot grant ends the run with the fatal
error "out of memory"; otherwise the result is a zeroed slice. -/
def makeBytes (avail : Nat) (length : Int) : Outcome (List Nat) :=
  if length < 0 ∨ length > (maxAlloc : Int) then .panic .makesliceLenOutOfRange
  else if length > (avail : Int) then .panic .outOfMemory
  else .ok (List.replicate length.toNat 0)

/-! ## Frame protocol -/

/-- The loops `for _, ch := range ... { hideOneChar(writeIndex, ch, image); writeIndex += 4 }`
of `writeSecret`: returns the final `writeIndex` and the new contents. -/
def hideChars : List Nat → Nat → List Nat → Outcome (Nat × List Nat)
  | [], writeIndex, image => .ok (writeIndex, image)
  | ch :: rest, writeIndex, image =>
    match hideOneChar writeIndex ch image with
    | .ok image1 => hideChars rest (writeIndex + 4) image1
    | .panic p => .panic p
    | .fuelOut => .fuelOut

/-- The text every hidden message begins with: `strconv.Itoa(len(secret)) + "|"`
(124 is `|`), as bytes. -/
def msgBeginningText (secret : List Nat) : List Nat := Itoa secret.length ++ [124]

/-- Go `writeSecret(secret, image)`: the new contents of `image` and the
returned error (`none` is `nil`). -/
def writeSecret (secret image : List Nat) : Outcome (List Nat × Option StegError) :=
  let writeIndex := image.length / 2
  if (image.length / 2 : Int) - 50 <
      (secret.length : Int) * 4 + ((msgBeginningText secret).length : Int) * 4 then
    .ok (image, some .imageTooSmall)
  else
    match hideChars (msgBeginningText secret) writeIndex image with
    | .ok (writeIndex1, image1) =>
      match hideChars secret writeIndex1 image1 with
      | .ok (_, image2) => .ok (image2, none)
      | .panic p => .panic p
      | .fuelOut => .fuelOut
    | .panic p => .panic p
    | .fuelOut => .fuelOut

/-- The header loop `for { ch := readOneChar(...); readIndex += 4; if ch == '|' { break }; ... }`
of `readSecret`, run on fuel: returns `readIndex` and `msgLength` at the `break`. -/
def readHeaderLoop (image : List Nat) : Nat → Nat → List Nat → Outcome (Nat × List Nat)
  | 0, _, _ => .fuelOut
  | fuel + 1, readIndex, msgLength =>
    match readOneChar readIndex image with
    | .ok ch =>
      if ch = 124 then .ok (readIndex + 4, msgLength)
      else readHeaderLoop image fuel (readIndex + 4) (msgLength ++ byteToString ch)
    | .panic p => .panic p
    | .fuelOut => .fuelOut

/-- The loop `for i := range secret { ch := readOneChar(...); readIndex += 4; secret[i] = ch }`
of `readSecret`, with `n` iterations left. -/
def readSecretLoop (image : List Nat) : Nat → Nat → Nat → List Nat → Outcome (List Nat)
  | 0, _, _, secret => .ok secret
  | n + 1, i, readIndex, secret =>
    match readOneChar readIndex image with
    | .ok ch => readSecretLoop image n (i + 1) (readIndex + 4) (secret.set i ch)
    | .panic p => .panic p
    | .fuelOut => .fuelOut

/-- Go `readSecret(image)`: the returned string (as bytes) and error.  The
header loop gets `len(image) + 1` units of fuel; the allocator can grant
`len(image) + spare` bytes. -/
def readSecret (spare : Nat) (image : List Nat) : Outcome (List Nat × Option StegError) :=
  match readHeaderLoop image (image.length + 1) (image.length / 2) [] with
  | .ok (readIndex, msgLength) =>
    match Atoi msgLength with
    | none => .ok ([], some .badFormat)
    | some length =>
      match makeBytes (image.length + spare) length with
      | .ok secret =>
        match readSecretLoop image secret.length 0 readIndex secret with
        | .ok secret1 => .ok (secret1, none)
        | .panic p => .panic p
        | .fuelOut => .fuelOut
      | .panic p => .panic p
      | .fuelOut => .fuelOut
  | .panic p => .panic p
  | .fuelOut => .fuelOut

/-- What a call of `Encode` leaves behind: the contents of the caller's
buffer `file` after the call, the returned slice (`none` is `nil`) and the
returned error. -/
structure Encoded where
  file : List Nat
  result : Option (List Nat)
  err : Option StegError
  deriving DecidableEq, Repr

/-- Go `Encode(file, message)`; `encodedFile` is an alias of `file`. -/
def Encode (file message : List Nat) : Outcome Encoded :=
  match writeSecret message file with
  | .ok (encodedFile, some err) => .ok ⟨encodedFile, none, some err⟩
  | .ok (encodedFile, none) => .ok ⟨encodedFile, some encodedFile, none⟩
  | .panic p => .panic p
  | .fuelOut => .fuelOut

/-- Go `Decode(file)`, on a machine whose allocator can grant
`len(file) + spare` bytes. -/
def Decode (spare : Nat) (file : List Nat) : Outcome (List Nat × Option StegError) :=
  readSecret spare file

/-! ## The read path with the carrier as explicit state

`Decode` only reads its argument, so the definitions above take the carrier
as a plain argument.  The definitions below are the same functions with the
carrier threaded through as state: each returns the contents of the carrier
after the run, also when the run panics. -/

/-- The loop of `readOneChar` with the carrier as state. -/
def readOneCharLoopSt : Nat → Nat → Nat → Nat → List Nat → List Nat × Outcome Nat
  | 0, _, _, char, image => (image, .ok char)
  | n + 1, j, readIndex, char, image =>
    match image[readIndex]? with
    | none => (image, .panic .indexOutOfRange)
    | some b =>
      let origWithSixBiggestBitsZero := b &&& 3
      let origWithRelevantBitsShifted := (origWithSixBiggestBitsZero <<< (j * 2)) % 256
      readOneCharLoopSt n (j + 1) (readIndex + 1) (char ||| origWithRelevantBitsShifted) image

/-- Go `readOneChar(byteIndex, image)` with the carrier as state. -/
def readOneCharSt (byteIndex : Nat) (image : List Nat) : List Nat × Outcome Nat :=
  readOneCharLoopSt 4 0 byteIndex 0 image

/-- The header loop of `readSecret` with the carrier as state. -/
def readHeaderLoopSt : Nat → Nat → List Nat → List Nat → List Nat × Outcome (Nat × List Nat)
  | 0, _, _, image => (image, .fuelOut)
  | fuel + 1, readIndex, msgLength, image =>
    match readOneCharSt readIndex image with
    | (image1, .ok ch) =>
      if ch = 124 then (image1, .ok (readIndex + 4, msgLength))
      else readHeaderLoopSt fuel (readIndex + 4) (msgLength ++ byteToString ch) image1
    | (image1, .panic p) => (image1, .panic p)
    | (image1, .fuelOut) => (image1, .fuelOut)

/-- The payload loop of `readSecret` with the carrier as state; `secret` is
the freshly made slice, a buffer of its own. -/
def readSecretLoopSt : Nat → Nat → Nat → List Nat → List Nat → List Nat × Outcome (List Nat)
  | 0, _, _, secret, image => (image, .ok secret)
  | n + 1, i, readIndex, secret, image =>
    match readOneCharSt readIndex image with
    | (image1, .ok ch) => readSecretLoopSt n (i + 1) (readIndex + 4) (secret.set i ch) image1
    | (image1, .panic p) => (image1, .panic p)
    | (image1, .fuelOut) => (image1, .fuelOut)

/-- Go `readSecret(image)` with the carrier as state. -/
def readSecretSt (spare : Nat) (image : List Nat) :
    List Nat × Outcome (List Nat × Option StegError) :=
  match readHeaderLoopSt (image.length + 1) (image.length / 2) [] image with
  | (image1, .ok (readIndex, msgLength)) =>
    match Atoi msgLength with
    | none => (image1, .ok ([], some .badFormat))
    | some length =>
      match makeBytes (image.length + spare) length with
      | .ok secret =>
        match readSecretLoopSt secret.length 0 readIndex secret image1 with
        | (image2, .ok secret1) => (image2, .ok (secret1, none))
        | (image2, .panic p) => (image2, .panic p)
        | (image2, .fuelOut) => (image2, .fuelOut)
      | .panic p => (image1, .panic p)
      | .fuelOut => (image1, .fuelOut)
  | (image1, .panic p) => (image1, .panic p)
  | (image1, .fuelOut) => (image1, .fuelOut)

/-- Go `Decode(file)` with the carrier as state: the contents of `file` after
the call and the outcome. -/
def DecodeSt (spare : Nat) (file : List Nat) :
    List Nat × Outcome (List Nat × Option StegError) :=
  readSecretSt spare file

/-! ## Specification vocabulary -/

/-- The byte `hideOneChar` leaves at distance `d` from `byteIndex`, where the
carrier byte was `o`: the six high bits of `o` over bit pair `d` of `ch`. -/
def stamp (ch d o : Nat) : Nat := o &&& 252 ||| (ch >>> (2 * d)) &&& 3

/-- The frame of a payload: length text, delimiter, payload. -/
def frame (secret : List Nat) : List Nat := msgBeginningText secret ++ secret

/-- The string the header loop of `readSecret` accumulates from the
characters `cs` it read before the delimiter. -/
def headerText : List Nat → List Nat
  | [] => []
  | c :: cs => byteToString c ++ headerText cs

/-- The 4-byte groups of `image` at `r`, `r + 4`, `r + 8`, ... decode, in
bounds, to the characters `cs`. -/
def ReadsAt (image : List Nat) (r : Nat) (cs : List Nat) : Prop :=
  ∀ k, k < cs.length → readOneChar (r + 4 * k) image = .ok (cs.getD k 0)

instance (image : List Nat) (r : Nat) (cs : List Nat) : Decidable (ReadsAt image r cs) := by
  unfold ReadsAt; infer_instance

/-- A non-empty sequence of ASCII decimal digits. -/
def IsDecimal (s : List Nat) : Prop := s ≠ [] ∧ ∀ c ∈ s, 48 ≤ c ∧ c ≤ 57

instance (s : List Nat) : Decidable (IsDecimal s) := by
  unfold IsDecimal; infer_instance

/-- An optional sign `+` (43) or `-` (45) followed by a non-empty sequence of
ASCII decimal digits. -/
def IsSignedDecimal (s : List Nat) : Prop :=
  match s with
  | [] => False
  | c :: t => IsDecimal (if c = 45 ∨ c = 43 then t else c :: t)

instance (s : List Nat) : Decidable (IsSignedDecimal s) := by
  unfold IsSignedDecimal; split <;> infer_instance

/-- The value of a string of decimal digits. -/
def decimalValue (ds : List Nat) : Nat := ds.foldl (fun acc c => acc * 10 + (c - 48)) 0

/-- The four bit pairs of each character of `cs`, lowest pair first: what a
carrier of zero bytes holds where `cs` was hidden. -/
def groupsOf : List Nat → List Nat
  | [] => []
  | c :: cs => [c &&& 3, (c >>> 2) &&& 3, (c >>> 4) &&& 3, (c >>> 6) &&& 3] ++ groupsOf cs

/-! ## Concrete carriers -/

/-- The payload "hi". -/
def hi : List Nat := [104, 105]

/-- A payload of 10 bytes, "0123456789". -/
def tenBytes : List Nat := [48, 49, 50, 51, 52, 53, 54, 55, 56, 57]

/-- A carrier of 1000 zero bytes. -/
def zeros1000 : List Nat := List.replicate 1000 0

/-- The carrier `zeros1000` after "hi" was hidden in it: "2|hi" in the low
bit pairs of bytes 500 to 515. -/
def zeros1000Hi : List Nat :=
  List.replicate 500 0 ++ [2, 0, 3, 0, 0, 3, 3, 1, 0, 2, 2, 1, 1, 2, 2, 1] ++ List.replicate 484 0

/-- A carrier of 32 bytes whose second half holds "+1|A" in its low bit pairs. -/
def plusOneA : List Nat :=
  List.replicate 16 0 ++ [3, 2, 2, 0, 1, 0, 3, 0, 0, 3, 3, 1, 1, 0, 0, 1]

/-- A carrier of 16 bytes whose second half holds "-|" in its low bit pairs. -/
def minusOnly : List Nat := List.replicate 8 0 ++ [1, 3, 2, 0, 0, 3, 3, 1]

/-- A carrier of 132 bytes, all 255. -/
def ones132 : List Nat := List.replicate 132 255

/-- The carrier `ones132` after "hi" was hidden in it. -/
def ones132Hi : List Nat :=
  List.replicate 66 255 ++
    [254, 252, 255, 252, 252, 255, 255, 253, 252, 254, 254, 253, 253, 254, 254, 253] ++
    List.replicate 50 255

/-- The digits of 9223372036854775807, the largest 64-bit `int`. -/
def maxIntDigits : List Nat :=
  [57, 50, 50, 51, 51, 55, 50, 48, 51, 54, 56, 53, 52, 55, 55, 53, 56, 48, 55]

/-- A carrier of 160 bytes whose second half holds "9223372036854775807|". -/
def hugeLength : List Nat := List.replicate 80 0 ++ groupsOf (maxIntDigits ++ [124])

/-- A carrier of 16 bytes whose second half holds "5|" and nothing after it. -/
def fiveCut : List Nat := List.replicate 8 0 ++ groupsOf [53, 124]

/-- A carrier of 24 bytes whose second half holds "99|" and nothing after it. -/
def ninetyNineCut : List Nat := List.replicate 12 0 ++ groupsOf [57, 57, 124]

/-- A carrier of 8 bytes whose second half holds "|". -/
def barOnly : List Nat := List.replicate 4 0 ++ groupsOf [124]

/-- The carrier `plusOneA` with another first half and other high bits. -/
def plusOneAHigh : List Nat :=
  List.replicate 16 201 ++
    [7, 6, 250, 128, 65, 4, 255, 8, 12, 19, 35, 1, 253, 252, 0, 77]

/-! ## Bit-level facts -/

theorem and_three (c : Nat) : c &&& 3 = c % 4 := Nat.and_pow_two_sub_one_eq_mod c 2

/-- The two low bits of a stamped byte are the two low bits of the character. -/
theorem stamp_low (o c : Nat) : (o &&& 252 ||| c &&& 3) &&& 3 = c &&& 3 := by
  rw [Nat.and_comm, Nat.and_or_distrib_left, Nat.and_comm 3 (o &&& 252), Nat.and_assoc o 252 3,
    show (252 : Nat) &&& 3 = 0 from rfl, Nat.and_zero, Nat.zero_or, Nat.and_comm 3, Nat.and_assoc,
    Nat.and_self]

theorem stamp_high_aux : ∀ o < 256, ∀ t < 4, (o &&& 252 ||| t) >>> 2 = o >>> 2 := by decide

/-- The six high bits of a stamped byte are those of the original byte. -/
theorem stamp_high (o c : Nat) (h : o < 256) : (o &&& 252 ||| c &&& 3) >>> 2 = o >>> 2 := by
  rw [and_three c]
  exact stamp_high_aux o h _ (Nat.mod_lt _ (by norm_num))

theorem pack_unpack : ∀ v < 256,
    (((0 ||| ((v >>> (2 * 0)) &&& 3) <<< (0 * 2) % 256)
      ||| ((v >>> (2 * 1)) &&& 3) <<< ((0 + 1) * 2) % 256)
      ||| ((v >>> (2 * 2)) &&& 3) <<< ((0 + 1 + 1) * 2) % 256)
      ||| ((v >>> (2 * 3)) &&& 3) <<< ((0 + 1 + 1 + 1) * 2) % 256 = v := by decide

/-! ## `hideOneChar` -/

theorem hideOneCharLoop_spec (n : Nat) : ∀ (w ch : Nat) (image : List Nat),
    w + n ≤ image.length →
    ∃ image1, hideOneCharLoop n w ch image = .ok image1 ∧ image1.length = image.length ∧
      ∀ k, image1[k]? =
        if w ≤ k ∧ k < w + n then (image[k]?).map (stamp ch (k - w)) else image[k]? := by
  induction n with
  | zero =>
    intro w ch image _
    refine ⟨image, rfl, rfl, fun k => ?_⟩
    rw [if_neg (by omega)]
  | succ n ih =>
    intro w ch image h
    have hw : w < image.length := by omega
    obtain ⟨image1, h1, h2, h3⟩ := ih (w + 1) (ch >>> 2)
      (image.set w (image[w] &&& 252 ||| ch &&& 3)) (by rw [List.length_set]; omega)
    refine ⟨image1, ?_, ?_, fun k => ?_⟩
    · rw [hideOneCharLoop, List.getElem?_eq_getElem hw]
      exact h1
    · rw [h2, List.length_set]
    · rw [h3 k]
      by_cases hk : k = w
      · subst hk
        rw [if_neg (by omega), if_pos (by omega), List.getElem?_set_self hw,
          List.getElem?_eq_getElem hw]
        simp [stamp]
      · rw [List.getElem?_set_ne (Ne.symm hk)]
        by_cases hr : w + 1 ≤ k ∧ k < w + 1 + n
        · rw [if_pos hr, if_pos (by omega)]
          have e : stamp (ch >>> 2) (k - (w + 1)) = stamp ch (k - w) := by
            funext o
            unfold stamp
            rw [← Nat.shiftRight_add]
            congr 3
            omega
          rw [e]
        · rw [if_neg hr, if_neg (by omega)]

theorem hideOneChar_spec (w ch : Nat) (image : List Nat) (h : w + 4 ≤ image.length) :
    ∃ image1, hideOneChar w ch image = .ok image1 ∧ image1.length = image.length ∧
      ∀ k, image1[k]? =
        if w ≤ k ∧ k < w + 4 then (image[k]?).map (stamp ch (k - w)) else image[k]? :=
  hideOneCharLoop_spec 4 w ch image h

theorem hideOneCharLoop_not_fuelOut (n : Nat) : ∀ (w ch : Nat) (image : List Nat),
    hideOneCharLoop n w ch image ≠ .fuelOut := by
  induction n with
  | zero => intro w ch image h; simp [hideOneCharLoop] at h
  | succ n ih =>
    intro w ch image
    rw [hideOneCharLoop]
    cases image[w]? with
    | none => simp
    | some o => exact ih _ _ _


/-! ## `readOneChar` -/

theorem readOneCharLoop_ok (image : List Nat) (n : Nat) : ∀ (j r c : Nat),
    r + n ≤ image.length → ∃ v, readOneCharLoop image n j r c = .ok v := by
  induction n with
  | zero => intro j r c _; exact ⟨c, rfl⟩
  | succ n ih =>
    intro j r c h
    have hr : r < image.length := by omega
    rw [readOneCharLoop, List.getElem?_eq_getElem hr]
    exact ih _ _ _ (by omega)

theorem readOneCharLoop_panic (image : List Nat) (n : Nat) : ∀ (j r c : Nat),
    image.length < r + n → 0 < n →
    readOneCharLoop image n j r c = .panic .indexOutOfRange := by
  induction n with
  | zero => intro j r c _ h; omega
  | succ n ih =>
    intro j r c h _
    rw [readOneCharLoop]
    by_cases hr : r < image.length
    · rw [List.getElem?_eq_getElem hr]
      exact ih _ _ _ (by omega) (by omega)
    · rw [List.getElem?_eq_none (by omega)]

/-- In bounds `readOneChar` returns, out of bounds it panics. -/
theorem readOneChar_cases (i : Nat) (image : List Nat) :
    (i + 4 ≤ image.length ∧ ∃ v, readOneChar i image = .ok v) ∨
    (image.length < i + 4 ∧ readOneChar i image = .panic .indexOutOfRange) := by
  by_cases h : i + 4 ≤ image.length
  · exact Or.inl ⟨h, readOneCharLoop_ok image 4 0 i 0 h⟩
  · exact Or.inr ⟨by omega, readOneCharLoop_panic image 4 0 i 0 (by omega) (by omega)⟩

theorem readOneChar_ok_bound {i : Nat} {image : List Nat} {v : Nat}
    (h : readOneChar i image = .ok v) : i + 4 ≤ image.length := by
  rcases readOneChar_cases i image with ⟨hb, _⟩ | ⟨_, hp⟩
  · exact hb
  · rw [hp] at h; cases h

theorem readOneChar_not_fuelOut (i : Nat) (image : List Nat) :
    readOneChar i image ≠ .fuelOut := by
  rcases readOneChar_cases i image with ⟨_, v, hv⟩ | ⟨_, hp⟩
  · rw [hv]; simp
  · rw [hp]; simp

theorem readOneChar_panic_kind {i : Nat} {image : List Nat} {p : Panic}
    (h : readOneChar i image = .panic p) : p = .indexOutOfRange := by
  rcases readOneChar_cases i image with ⟨_, v, hv⟩ | ⟨_, hp⟩
  · rw [hv] at h; cases h
  · rw [hp] at h; cases h; rfl

/-- The value `readOneChar` assembles from four carrier bytes. -/
theorem readOneChar_eq (i : Nat) (image : List Nat) (b0 b1 b2 b3 : Nat)
    (h0 : image[i]? = some b0) (h1 : image[i + 1]? = some b1)
    (h2 : image[i + 1 + 1]? = some b2) (h3 : image[i + 1 + 1 + 1]? = some b3) :
    readOneChar i image = .ok
      ((((0 ||| (b0 &&& 3) <<< (0 * 2) % 256)
        ||| (b1 &&& 3) <<< ((0 + 1) * 2) % 256)
        ||| (b2 &&& 3) <<< ((0 + 1 + 1) * 2) % 256)
        ||| (b3 &&& 3) <<< ((0 + 1 + 1 + 1) * 2) % 256) := by
  simp only [readOneChar, readOneCharLoop, h0, h1, h2, h3]

/-- When the low bit pairs of the four bytes at `i` are the bit pairs of the
byte `v`, `readOneChar` returns `v`. -/
theorem readOneChar_of_low (i : Nat) (image : List Nat) (v : Nat) (hv : v < 256)
    (h : ∀ j, j < 4 → ∃ b, image[i + j]? = some b ∧ b &&& 3 = (v >>> (2 * j)) &&& 3) :
    readOneChar i image = .ok v := by
  obtain ⟨b0, h0, e0⟩ := h 0 (by omega)
  obtain ⟨b1, h1, e1⟩ := h 1 (by omega)
  obtain ⟨b2, h2, e2⟩ := h 2 (by omega)
  obtain ⟨b3, h3, e3⟩ := h 3 (by omega)
  rw [readOneChar_eq i image b0 b1 b2 b3 h0 h1 h2 h3, e0, e1, e2, e3, pack_unpack v hv]

/-! ## `hideChars` -/

theorem hideChars_spec (chs : List Nat) : ∀ (w : Nat) (image : List Nat),
    w + 4 * chs.length ≤ image.length →
    ∃ image1, hideChars chs w image = .ok (w + 4 * chs.length, image1) ∧
      image1.length = image.length ∧
      ∀ k, image1[k]? =
        if w ≤ k ∧ k < w + 4 * chs.length then
          (image[k]?).map (stamp (chs.getD ((k - w) / 4) 0) ((k - w) % 4))
        else image[k]? := by
  induction chs with
  | nil =>
    intro w image _
    refine ⟨image, rfl, rfl, fun k => ?_⟩
    rw [if_neg (by simp)]
  | cons ch rest ih =>
    intro w image h
    rw [List.length_cons] at h
    obtain ⟨image1, h1, l1, g1⟩ := hideOneChar_spec w ch image (by omega)
    obtain ⟨image2, h2, l2, g2⟩ := ih (w + 4) image1 (by omega)
    refine ⟨image2, ?_, by rw [l2, l1], fun k => ?_⟩
    · rw [hideChars, h1]
      simp only
      rw [h2, List.length_cons]
      congr 2
      omega
    · rw [g2 k, g1 k, List.length_cons]
      by_cases ha : w ≤ k ∧ k < w + 4
      · rw [if_neg (by omega), if_pos ha, if_pos (by omega)]
        have e1 : (k - w) / 4 = 0 := by omega
        have e2 : (k - w) % 4 = k - w := by omega
        rw [e1, e2]
        rfl
      · by_cases hb : w + 4 ≤ k ∧ k < w + 4 + 4 * rest.length
        · rw [if_pos hb, if_neg ha, if_pos (by omega)]
          have e1 : (k - w) / 4 = (k - (w + 4)) / 4 + 1 := by omega
          have e2 : (k - w) % 4 = (k - (w + 4)) % 4 := by omega
          rw [e1, e2]
          rfl
        · rw [if_neg hb, if_neg ha, if_neg (by omega)]

theorem hideChars_append (a : List Nat) : ∀ (b : List Nat) (w : Nat) (image : List Nat),
    hideChars (a ++ b) w image =
      match hideChars a w image with
      | .ok (w1, image1) => hideChars b w1 image1
      | .panic p => .panic p
      | .fuelOut => .fuelOut := by
  induction a with
  | nil => intro b w image; rfl
  | cons ch rest ih =>
    intro b w image
    rw [List.cons_append, hideChars, hideChars]
    cases hideOneChar w ch image with
    | ok image1 => exact ih b (w + 4) image1
    | panic p => rfl
    | fuelOut => rfl


/-! ## `writeSecret` and `Encode` -/

/-- The capacity check of `writeSecret` fails. -/
theorem writeSecret_tooSmall (secret image : List Nat)
    (h : (image.length / 2 : Int) - 50 <
      (secret.length : Int) * 4 + ((msgBeginningText secret).length : Int) * 4) :
    writeSecret secret image = .ok (image, some .imageTooSmall) := by
  unfold writeSecret
  simp only
  rw [if_pos h]

/-- When the capacity check passes the two write loops run without panic and
leave the frame stamped from `len(image)/2` on. -/
theorem writeSecret_fits (secret image : List Nat)
    (h : ¬ (image.length / 2 : Int) - 50 <
      (secret.length : Int) * 4 + ((msgBeginningText secret).length : Int) * 4) :
    ∃ image1, writeSecret secret image = .ok (image1, none) ∧
      image1.length = image.length ∧
      ∀ k, image1[k]? =
        if image.length / 2 ≤ k ∧ k < image.length / 2 + 4 * (frame secret).length then
          (image[k]?).map (stamp ((frame secret).getD ((k - image.length / 2) / 4) 0)
            ((k - image.length / 2) % 4))
        else image[k]? := by
  have hlen : (frame secret).length = (msgBeginningText secret).length + secret.length := by
    unfold frame; rw [List.length_append]
  have hb : image.length / 2 + 4 * (frame secret).length ≤ image.length := by
    rw [hlen]; omega
  obtain ⟨image1, h1, l1, g1⟩ := hideChars_spec (frame secret) (image.length / 2) image hb
  refine ⟨image1, ?_, l1, g1⟩
  unfold frame at h1
  rw [hideChars_append] at h1
  unfold writeSecret
  simp only
  rw [if_neg h]
  cases h2 : hideChars (msgBeginningText secret) (image.length / 2) image with
  | ok r =>
    obtain ⟨w1, im1⟩ := r
    rw [h2] at h1
    simp only at h1 ⊢
    rw [h1]
  | panic p => rw [h2] at h1; cases h1
  | fuelOut => rw [h2] at h1; cases h1

theorem Encode_tooSmall (file message : List Nat)
    (h : (file.length / 2 : Int) - 50 <
      (message.length : Int) * 4 + ((msgBeginningText message).length : Int) * 4) :
    Encode file message = .ok ⟨file, none, some .imageTooSmall⟩ := by
  unfold Encode
  rw [writeSecret_tooSmall message file h]

theorem Encode_fits (file message : List Nat)
    (h : ¬ (file.length / 2 : Int) - 50 <
      (message.length : Int) * 4 + ((msgBeginningText message).length : Int) * 4) :
    ∃ image1, Encode file message = .ok ⟨image1, some image1, none⟩ ∧
      image1.length = file.length ∧
      ∀ k, image1[k]? =
        if file.length / 2 ≤ k ∧ k < file.length / 2 + 4 * (frame message).length then
          (file[k]?).map (stamp ((frame message).getD ((k - file.length / 2) / 4) 0)
            ((k - file.length / 2) % 4))
        else file[k]? := by
  obtain ⟨image1, h1, l1, g1⟩ := writeSecret_fits message file h
  refine ⟨image1, ?_, l1, g1⟩
  unfold Encode
  rw [h1]

/-- A successful `Encode` is one whose capacity check passed, and its result
is the caller's buffer. -/
theorem Encode_ok_inv {file message : List Nat} {e : Encoded}
    (h : Encode file message = .ok e) (herr : e.err = none) :
    ¬ (file.length / 2 : Int) - 50 <
      (message.length : Int) * 4 + ((msgBeginningText message).length : Int) * 4 := by
  intro hc
  rw [Encode_tooSmall file message hc] at h
  cases h
  cases herr

/-! ## `Itoa` and `Atoi` -/

theorem itoaLoop_atoiDigits (fuel : Nat) : ∀ (n : Nat) (acc : List Nat), n < fuel →
    atoiDigits (itoaLoop fuel n acc) 0 = atoiDigits acc n := by
  induction fuel with
  | zero => intro n acc h; omega
  | succ fuel ih =>
    intro n acc h
    rw [itoaLoop]
    by_cases hn : n < 10
    · rw [if_pos hn, atoiDigits, if_pos (by omega)]
      congr 1
      omega
    · rw [if_neg hn, ih (n / 10) _ (by omega), atoiDigits, if_pos (by omega)]
      congr 1
      omega

theorem itoaLoop_mem (fuel : Nat) : ∀ (n : Nat) (acc : List Nat) (c : Nat),
    c ∈ itoaLoop fuel n acc → (48 ≤ c ∧ c ≤ 57) ∨ c ∈ acc := by
  induction fuel with
  | zero => intro n acc c h; exact Or.inr h
  | succ fuel ih =>
    intro n acc c h
    rw [itoaLoop] at h
    by_cases hn : n < 10
    · rw [if_pos hn, List.mem_cons] at h
      rcases h with h | h
      · left; omega
      · exact Or.inr h
    · rw [if_neg hn] at h
      rcases ih _ _ _ h with h | h
      · exact Or.inl h
      · rw [List.mem_cons] at h
        rcases h with h | h
        · left; omega
        · exact Or.inr h

theorem itoaLoop_length (fuel : Nat) : ∀ (n : Nat) (acc : List Nat),
    acc.length ≤ (itoaLoop fuel n acc).length := by
  induction fuel with
  | zero => intro n acc; exact Nat.le_refl _
  | succ fuel ih =>
    intro n acc
    rw [itoaLoop]
    by_cases hn : n < 10
    · rw [if_pos hn, List.length_cons]; omega
    · rw [if_neg hn]
      have := ih (n / 10) ((48 + n % 10) :: acc)
      rw [List.length_cons] at this
      omega

/-- Every byte of `Itoa n` is an ASCII digit. -/
theorem Itoa_digit (n c : Nat) (h : c ∈ Itoa n) : 48 ≤ c ∧ c ≤ 57 := by
  rcases itoaLoop_mem _ _ _ _ h with h | h
  · exact h
  · cases h

theorem Itoa_length_pos (n : Nat) : 0 < (Itoa n).length := by
  unfold Itoa
  rw [itoaLoop]
  by_cases hn : n < 10
  · rw [if_pos hn, List.length_cons]; omega
  · rw [if_neg hn]
    have := itoaLoop_length n (n / 10) [48 + n % 10]
    rw [List.length_cons] at this
    omega

theorem atoiDigits_Itoa (n : Nat) : atoiDigits (Itoa n) 0 = some n := by
  unfold Itoa
  rw [itoaLoop_atoiDigits (n + 1) n [] (by omega)]
  rfl

/-- The function `Atoi` reads back what `Itoa` printed, for a length a Go `int` can hold. -/
theorem Atoi_Itoa (n : Nat) (h : n < 2 ^ 63) : Atoi (Itoa n) = some (n : Int) := by
  have hd := Itoa_digit n
  have hp := Itoa_length_pos n
  have ha := atoiDigits_Itoa n
  cases hs : Itoa n with
  | nil => rw [hs] at hp; simp at hp
  | cons c t =>
    rw [hs] at hd ha
    have hc := hd c (List.mem_cons_self c t)
    have h45 : c ≠ 45 := by omega
    have h43 : c ≠ 43 := by omega
    have hge : ¬ n ≥ 2 ^ 63 := by omega
    simp only [Atoi, h45, h43, ha, or_self, if_false, reduceCtorEq, ge_iff_le]
    rw [if_neg (by omega)]

/-! ## The models of `strconv.Itoa` and `string(byte)` against the core library -/

theorem digitChar_toNat (d : Nat) (h : d < 10) : (Nat.digitChar d).toNat = 48 + d := by
  interval_cases d <;> rfl

theorem itoaLoop_eq_toDigitsCore (fuel : Nat) : ∀ (n : Nat) (ds : List Char),
    itoaLoop fuel n (ds.map Char.toNat) = (Nat.toDigitsCore 10 fuel n ds).map Char.toNat := by
  induction fuel with
  | zero => intro n ds; rfl
  | succ fuel ih =>
    intro n ds
    rw [itoaLoop, Nat.toDigitsCore]
    by_cases hn : n < 10
    · have h0 : n / 10 = 0 := by omega
      have hm : n % 10 = n := by omega
      rw [if_pos hn, if_pos h0, List.map_cons, hm, digitChar_toNat n hn]
    · have h0 : ¬ n / 10 = 0 := by omega
      rw [if_neg hn, if_neg h0, ← ih, List.map_cons, digitChar_toNat _ (Nat.mod_lt n (by omega))]

/-- The model of `strconv.Itoa` prints the decimal representation of `n`. -/
theorem Itoa_eq_toDigits (n : Nat) : Itoa n = (Nat.toDigits 10 n).map Char.toNat := by
  unfold Itoa Nat.toDigits
  exact itoaLoop_eq_toDigitsCore (n + 1) n []

/-- The model of `string(ch)` is the UTF-8 encoding of the code point `ch`. -/
theorem byteToString_utf8 : ∀ ch < 256,
    byteToString ch = (String.utf8EncodeChar (Char.ofNat ch)).map UInt8.toNat := by decide

/-! ## Reading -/

theorem ReadsAt_cons (image : List Nat) (r c : Nat) (cs : List Nat) :
    ReadsAt image r (c :: cs) ↔ readOneChar r image = .ok c ∧ ReadsAt image (r + 4) cs := by
  constructor
  · intro h
    refine ⟨by simpa using h 0 (by simp), fun k hk => ?_⟩
    have := h (k + 1) (by simpa using hk)
    rw [List.getD_cons_succ] at this
    rw [← this]
    congr 1
    omega
  · rintro ⟨h0, h1⟩ k hk
    cases k with
    | zero => simpa using h0
    | succ k =>
      rw [List.length_cons] at hk
      have := h1 k (by omega)
      rw [List.getD_cons_succ, ← this]
      congr 1
      omega

theorem ReadsAt_append (image : List Nat) (a : List Nat) : ∀ (r : Nat) (b : List Nat),
    ReadsAt image r (a ++ b) ↔ ReadsAt image r a ∧ ReadsAt image (r + 4 * a.length) b := by
  induction a with
  | nil =>
    intro r b
    simp [ReadsAt]
  | cons c a ih =>
    intro r b
    rw [List.cons_append, ReadsAt_cons, ReadsAt_cons, ih (r + 4) b, List.length_cons, and_assoc]
    have e : r + 4 + 4 * a.length = r + 4 * (a.length + 1) := by omega
    rw [e]

theorem headerText_ascii (cs : List Nat) (h : ∀ c ∈ cs, c < 128) : headerText cs = cs := by
  induction cs with
  | nil => rfl
  | cons c cs ih =>
    have hc := h c (List.mem_cons_self c cs)
    rw [headerText, ih (fun d hd => h d (List.mem_cons_of_mem c hd)), byteToString, if_pos hc]
    rfl

/-- The header loop on a carrier whose groups from `r` on decode to `cs` and
then to the delimiter. -/
theorem readHeaderLoop_frame (image : List Nat) (cs : List Nat) :
    ∀ (fuel r : Nat) (acc : List Nat), ReadsAt image r cs → 124 ∉ cs →
    readOneChar (r + 4 * cs.length) image = .ok 124 → cs.length < fuel →
    readHeaderLoop image fuel r acc = .ok (r + 4 * cs.length + 4, acc ++ headerText cs) := by
  induction cs with
  | nil =>
    intro fuel r acc _ _ hd hf
    cases fuel with
    | zero => simp at hf
    | succ fuel =>
      rw [readHeaderLoop]
      simp only [List.length_nil, Nat.mul_zero, Nat.add_zero] at hd
      rw [hd]
      simp [headerText]
  | cons c cs ih =>
    intro fuel r acc hr hn hd hf
    rw [ReadsAt_cons] at hr
    cases fuel with
    | zero => simp at hf
    | succ fuel =>
      rw [List.length_cons] at hf hd
      have hc : c ≠ 124 := fun e => hn (e ▸ List.mem_cons_self c cs)
      have e : r + 4 * (cs.length + 1) = r + 4 + 4 * cs.length := by omega
      rw [readHeaderLoop, hr.1]
      simp only
      rw [if_neg hc, ih fuel (r + 4) _ hr.2 (fun m => hn (List.mem_cons_of_mem c m))
        (e ▸ hd) (by omega), headerText, List.append_assoc, List.length_cons]
      congr 2
      omega

/-- The payload loop on a carrier whose groups from `r` on decode to `P`. -/
theorem readSecretLoop_spec (image : List Nat) (P : List Nat) :
    ∀ (pre : List Nat) (r : Nat) (suf : List Nat), ReadsAt image r P →
    suf.length = P.length →
    readSecretLoop image P.length pre.length r (pre ++ suf) = .ok (pre ++ P) := by
  induction P with
  | nil =>
    intro pre r suf _ hs
    have : suf = [] := List.length_eq_zero.mp hs
    subst this
    rfl
  | cons v P ih =>
    intro pre r suf hr hs
    rw [ReadsAt_cons] at hr
    cases suf with
    | nil => simp at hs
    | cons s suf =>
      rw [List.length_cons, readSecretLoop, hr.1]
      simp only
      have e1 : (pre ++ s :: suf).set pre.length v = (pre ++ [v]) ++ suf := by
        simp
      have e2 : pre.length + 1 = (pre ++ [v]).length := by simp
      rw [e1, e2, ih (pre ++ [v]) (r + 4) suf hr.2 (by simpa using hs)]
      simp

/-- What is read in bounds is no longer than the carrier. -/
theorem ReadsAt_length_le (image : List Nat) (r : Nat) (P : List Nat)
    (hp : ReadsAt image r P) : P.length ≤ image.length := by
  cases hP : P.length with
  | zero => exact Nat.zero_le _
  | succ n =>
    have := readOneChar_ok_bound (hp n (by omega))
    omega

/-- The run of `readSecret` on a carrier that holds a well-formed frame for the payload `P`. -/
theorem readSecret_frame (spare : Nat) (image cs P : List Nat)
    (hh : ReadsAt image (image.length / 2) cs) (hn : 124 ∉ cs)
    (hd : readOneChar (image.length / 2 + 4 * cs.length) image = .ok 124)
    (ha : Atoi (headerText cs) = some (P.length : Int)) (hm : P.length ≤ maxAlloc)
    (hp : ReadsAt image (image.length / 2 + 4 * cs.length + 4) P) :
    readSecret spare image = .ok (P, none) := by
  have hb := readOneChar_ok_bound hd
  have h1 := readHeaderLoop_frame image cs (image.length + 1) (image.length / 2) [] hh hn hd
    (by omega)
  have hfit : P.length ≤ image.length := ReadsAt_length_le image _ P hp
  have h2 : makeBytes (image.length + spare) (P.length : Int) =
      .ok (List.replicate P.length 0) := by
    unfold makeBytes
    rw [if_neg (by omega), if_neg (by omega)]
    simp
  have h3 := readSecretLoop_spec image P [] (image.length / 2 + 4 * cs.length + 4)
    (List.replicate P.length 0) hp (by simp)
  simp only [List.nil_append, List.length_nil] at h1 h3
  unfold readSecret
  rw [h1]
  simp only
  rw [ha]
  simp only
  rw [h2]
  simp only [List.length_replicate]
  rw [h3]

/-- The run of `readSecret` on a carrier whose header text `strconv.Atoi` rejects. -/
theorem readSecret_badFormat (spare : Nat) (image cs : List Nat)
    (hh : ReadsAt image (image.length / 2) cs) (hn : 124 ∉ cs)
    (hd : readOneChar (image.length / 2 + 4 * cs.length) image = .ok 124)
    (ha : Atoi (headerText cs) = none) :
    readSecret spare image = .ok ([], some .badFormat) := by
  have hb := readOneChar_ok_bound hd
  have h1 := readHeaderLoop_frame image cs (image.length + 1) (image.length / 2) [] hh hn hd
    (by omega)
  simp only [List.nil_append] at h1
  unfold readSecret
  rw [h1]
  simp only
  rw [ha]

/-- A carrier stamped with the characters `F` from `w` on reads back as `F`. -/
theorem stamped_ReadsAt (image image1 F : List Nat) (w : Nat) (hF : IsBytes F)
    (hb : w + 4 * F.length ≤ image.length)
    (hg : ∀ k, image1[k]? =
      if w ≤ k ∧ k < w + 4 * F.length then
        (image[k]?).map (stamp (F.getD ((k - w) / 4) 0) ((k - w) % 4))
      else image[k]?) :
    ReadsAt image1 w F := by
  intro k hk
  have hv : F.getD k 0 < 256 := by
    rw [List.getD_eq_getElem F 0 hk]
    exact hF _ (List.getElem_mem hk)
  refine readOneChar_of_low (w + 4 * k) image1 (F.getD k 0) hv (fun j hj => ?_)
  have hi : w + 4 * k + j < image.length := by omega
  refine ⟨stamp (F.getD k 0) j image[w + 4 * k + j], ?_, stamp_low _ _⟩
  have e1 : (w + 4 * k + j - w) / 4 = k := by omega
  have e2 : (w + 4 * k + j - w) % 4 = j := by omega
  rw [hg, if_pos (by omega), List.getElem?_eq_getElem hi, e1, e2]
  rfl

theorem hideOneCharLoop_panic (n : Nat) : ∀ (w ch : Nat) (image : List Nat),
    image.length < w + n → 0 < n →
    hideOneCharLoop n w ch image = .panic .indexOutOfRange := by
  induction n with
  | zero => intro w ch image _ h; omega
  | succ n ih =>
    intro w ch image h _
    rw [hideOneCharLoop]
    by_cases hw : w < image.length
    · rw [List.getElem?_eq_getElem hw]
      exact ih _ _ _ (by rw [List.length_set]; omega) (by omega)
    · rw [List.getElem?_eq_none (by omega)]

/-! ## Fuel -/

theorem readHeaderLoop_not_fuelOut (image : List Nat) (fuel : Nat) :
    ∀ (r : Nat) (acc : List Nat), r ≤ image.length → image.length < fuel + r →
    readHeaderLoop image fuel r acc ≠ .fuelOut := by
  induction fuel with
  | zero => intro r acc h1 h2; omega
  | succ fuel ih =>
    intro r acc h1 h2
    rw [readHeaderLoop]
    rcases readOneChar_cases r image with ⟨hb, v, hv⟩ | ⟨_, hp⟩
    · rw [hv]
      simp only
      by_cases h : v = 124
      · rw [if_pos h]; simp
      · rw [if_neg h]; exact ih _ _ hb (by omega)
    · rw [hp]; simp

theorem readSecretLoop_not_fuelOut (image : List Nat) (n : Nat) :
    ∀ (i r : Nat) (secret : List Nat), readSecretLoop image n i r secret ≠ .fuelOut := by
  induction n with
  | zero => intro i r secret; simp [readSecretLoop]
  | succ n ih =>
    intro i r secret
    rw [readSecretLoop]
    rcases readOneChar_cases r image with ⟨_, v, hv⟩ | ⟨_, hp⟩
    · rw [hv]; exact ih _ _ _
    · rw [hp]; simp

/-- The fuel given to the header loop is never used up: `readSecret` always
returns or panics. -/
theorem readSecret_fuel_suffices (spare : Nat) (image : List Nat) :
    readSecret spare image ≠ .fuelOut := by
  unfold readSecret
  have h1 := readHeaderLoop_not_fuelOut image (image.length + 1) (image.length / 2) []
    (by omega) (by omega)
  cases h : readHeaderLoop image (image.length + 1) (image.length / 2) [] with
  | ok a =>
    obtain ⟨readIndex, msgLength⟩ := a
    simp only
    cases Atoi msgLength with
    | none => simp
    | some length =>
      simp only
      cases hm : makeBytes (image.length + spare) length with
      | ok secret =>
        simp only
        have h2 := readSecretLoop_not_fuelOut image secret.length 0 readIndex secret
        cases h3 : readSecretLoop image secret.length 0 readIndex secret with
        | ok s => simp
        | panic p => simp
        | fuelOut => exact absurd h3 h2
      | panic p => simp
      | fuelOut =>
        unfold makeBytes at hm
        split at hm
        · cases hm
        · split at hm <;> cases hm
  | panic p => simp
  | fuelOut => exact absurd h h1

/-- The header loop on a carrier without delimiter runs off the end. -/
theorem readHeaderLoop_unterminated (image : List Nat) (fuel : Nat) :
    ∀ (r : Nat) (acc : List Nat), r ≤ image.length → image.length < fuel + r →
    (∀ k, r + 4 * k + 4 ≤ image.length → readOneChar (r + 4 * k) image ≠ .ok 124) →
    readHeaderLoop image fuel r acc = .panic .indexOutOfRange := by
  induction fuel with
  | zero => intro r acc h1 h2; omega
  | succ fuel ih =>
    intro r acc h1 h2 hn
    rw [readHeaderLoop]
    rcases readOneChar_cases r image with ⟨hb, v, hv⟩ | ⟨_, hp⟩
    · have hne : v ≠ 124 := by
        intro e
        have := hn 0 (by omega)
        rw [Nat.mul_zero, Nat.add_zero, hv, e] at this
        exact this rfl
      rw [hv]
      simp only
      rw [if_neg hne]
      refine ih _ _ hb (by omega) (fun k hk => ?_)
      have e : r + 4 + 4 * k = r + 4 * (k + 1) := by omega
      rw [e]
      exact hn (k + 1) (by omega)
    · rw [hp]

/-! ## Claims -/

theorem msgBeginningText_length (P : List Nat) :
    (msgBeginningText P).length = (Itoa P.length).length + 1 := by
  unfold msgBeginningText
  rw [List.length_append, List.length_singleton]

theorem frame_length (P : List Nat) :
    (frame P).length = (msgBeginningText P).length + P.length := by
  unfold frame
  rw [List.length_append]

theorem frame_isBytes (P : List Nat) (hP : IsBytes P) : IsBytes (frame P) := by
  intro b hb
  unfold frame msgBeginningText at hb
  rw [List.mem_append, List.mem_append, List.mem_singleton] at hb
  rcases hb with (hb | hb) | hb
  · have := Itoa_digit _ _ hb; omega
  · omega
  · exact hP b hb

/-- The concrete run of the scenario of the specification: "hi" hidden in 1000
zero bytes. -/
theorem Encode_zeros1000 :
    Encode zeros1000 hi = .ok ⟨zeros1000Hi, some zeros1000Hi, none⟩ := by decide!

/-- Claim C1 (round trip): for every payload `P` (a Go byte slice, the empty
one included) and every carrier `C` with
`len(C) >= 2*(50 + 4*(len(header(P)) + len(P)))`, `Encode(C, P)` succeeds,
returning the mutated carrier `R`, and `Decode(R)` returns exactly the bytes of
`P` with a nil error (the allocation of `len(P)` bytes, fewer than the carrier
has, succeeds whatever the machine has to spare). -/
theorem encode_decode_round_trip (C P : List Nat) (hP : IsSlice P)
    (hlen : 2 * (50 + 4 * ((msgBeginningText P).length + P.length)) ≤ C.length) :
    ∃ R, Encode C P = .ok ⟨R, some R, none⟩ ∧ ∀ spare : Nat, Decode spare R = .ok (P, none) := by
  have hcap : ¬ (C.length / 2 : Int) - 50 <
      (P.length : Int) * 4 + ((msgBeginningText P).length : Int) * 4 := by omega
  obtain ⟨R, hR, hl, hg⟩ := Encode_fits C P hcap
  refine ⟨R, hR, ?_⟩
  have hfl := frame_length P
  have hml := msgBeginningText_length P
  have hread : ReadsAt R (C.length / 2) (frame P) :=
    stamped_ReadsAt C R (frame P) (C.length / 2) (frame_isBytes P hP.2) (by omega) hg
  unfold frame msgBeginningText at hread
  rw [ReadsAt_append, ReadsAt_append] at hread
  obtain ⟨⟨hh, hd⟩, hp⟩ := hread
  have hd0 := hd 0 (by simp)
  simp only [Nat.mul_zero, Nat.add_zero, List.getD_cons_zero] at hd0
  have hdig := Itoa_digit P.length
  have hn : 124 ∉ Itoa P.length := fun m => by have := hdig _ m; omega
  have htext : headerText (Itoa P.length) = Itoa P.length :=
    headerText_ascii _ (fun c m => by have := hdig c m; omega)
  have hmax : P.length ≤ maxAlloc := hP.1
  have h63 : P.length < 2 ^ 63 := by
    unfold maxAlloc at hmax
    omega
  intro spare
  unfold Decode
  rw [← hl] at hh hd0 hp
  refine readSecret_frame spare R (Itoa P.length) P hh hn hd0 ?_ hmax ?_
  · rw [htext]
    exact Atoi_Itoa _ h63
  · rw [List.length_append, List.length_singleton] at hp
    have e : R.length / 2 + 4 * (Itoa P.length).length + 4 =
        R.length / 2 + 4 * ((Itoa P.length).length + 1) := by omega
    rw [e]
    exact hp

/-- Witness of C1: 1000 zero bytes and "hi", and 1000 zero bytes and the empty
payload. -/
theorem encode_decode_round_trip_witness :
    (IsSlice hi ∧ 2 * (50 + 4 * ((msgBeginningText hi).length + hi.length)) ≤ zeros1000.length ∧
      ∃ R, Encode zeros1000 hi = .ok ⟨R, some R, none⟩ ∧
        ∀ spare : Nat, Decode spare R = .ok (hi, none)) ∧
    (∃ R, Encode zeros1000 [] = .ok ⟨R, some R, none⟩ ∧
      ∀ spare : Nat, Decode spare R = .ok ([], none)) :=
  ⟨⟨by decide, by decide, encode_decode_round_trip zeros1000 hi (by decide) (by decide)⟩,
    encode_decode_round_trip zeros1000 [] (by decide) (by decide)⟩

theorem itoaLoop_length_log (fuel : Nat) : ∀ (n : Nat) (acc : List Nat), n < fuel →
    (itoaLoop fuel n acc).length = acc.length + Nat.log 10 n + 1 := by
  induction fuel with
  | zero => intro n acc h; omega
  | succ fuel ih =>
    intro n acc h
    rw [itoaLoop]
    by_cases hn : n < 10
    · rw [if_pos hn, List.length_cons, Nat.log_of_lt hn]
    · have hlog : Nat.log 10 n = Nat.log 10 (n / 10) + 1 :=
        Nat.log_of_one_lt_of_le (by norm_num) (by omega)
      rw [if_neg hn, ih (n / 10) _ (by omega), List.length_cons, hlog]
      omega

/-- The text `Itoa n` has as many bytes as `n` has decimal digits:
`Nat.log 10 n + 1`, that is 1 for `n < 10`, 2 for `10 <= n < 100`, and so on. -/
theorem Itoa_length (n : Nat) : (Itoa n).length = Nat.log 10 n + 1 := by
  unfold Itoa
  rw [itoaLoop_length_log (n + 1) n [] (by omega)]
  simp

/-- The header is the decimal text of the payload length and the delimiter,
`Nat.log 10 (len P) + 2` bytes. -/
theorem msgBeginningText_decimal (P : List Nat) :
    msgBeginningText P = (Nat.toDigits 10 P.length).map Char.toNat ++ [124] ∧
    (msgBeginningText P).length = Nat.log 10 P.length + 2 := by
  unfold msgBeginningText
  rw [List.length_append, List.length_singleton, Itoa_length, Itoa_eq_toDigits]
  exact ⟨rfl, rfl⟩

/-- Claim C2 (capacity boundary): the header of a payload `P` is the decimal
digits of `len(P)` followed by `|`, so `len(header(P))` is the number of
decimal digits of `len(P)`, `Nat.log 10 (len P) + 1`, plus one.  With
`L = 2*(50 + 4*(len(P) + len(header(P))))`, `Encode` succeeds on every carrier
of length `L` and returns the capacity error on every carrier of length
`L - 1`; in general it returns the capacity error exactly when
`len(C)/2 - 50 < 4*(len(P) + len(header(P)))`, and succeeds otherwise. -/
theorem capacity_boundary (C P : List Nat) :
    msgBeginningText P = (Nat.toDigits 10 P.length).map Char.toNat ++ [124] ∧
    (C.length = 2 * (50 + 4 * (P.length + (Nat.log 10 P.length + 2))) →
      ∃ R, Encode C P = .ok ⟨R, some R, none⟩) ∧
    (C.length + 1 = 2 * (50 + 4 * (P.length + (Nat.log 10 P.length + 2))) →
      Encode C P = .ok ⟨C, none, some .imageTooSmall⟩) ∧
    ((∃ e, Encode C P = .ok e ∧ e.err = some .imageTooSmall) ↔
      (C.length / 2 : Int) - 50 <
        4 * ((P.length : Int) + ((Nat.log 10 P.length + 2 : Nat) : Int))) ∧
    ((∃ R, Encode C P = .ok ⟨R, some R, none⟩) ↔
      ¬ (C.length / 2 : Int) - 50 <
        4 * ((P.length : Int) + ((Nat.log 10 P.length + 2 : Nat) : Int))) := by
  obtain ⟨htext, hlen⟩ := msgBeginningText_decimal P
  refine ⟨htext, fun h => ?_, fun h => ?_, ?_, ?_⟩
  · obtain ⟨R, hR, _⟩ := Encode_fits C P (by omega)
    exact ⟨R, hR⟩
  · exact Encode_tooSmall C P (by omega)
  · by_cases hc : (C.length / 2 : Int) - 50 <
        (P.length : Int) * 4 + ((msgBeginningText P).length : Int) * 4
    · have h4 : (C.length / 2 : Int) - 50 <
          4 * ((P.length : Int) + ((Nat.log 10 P.length + 2 : Nat) : Int)) := by omega
      exact ⟨fun _ => h4, fun _ => ⟨_, Encode_tooSmall C P hc, rfl⟩⟩
    · have h4 : ¬ (C.length / 2 : Int) - 50 <
          4 * ((P.length : Int) + ((Nat.log 10 P.length + 2 : Nat) : Int)) := by omega
      obtain ⟨R, hR, _⟩ := Encode_fits C P hc
      refine ⟨fun ⟨e, he, herr⟩ => ?_, fun h => absurd h h4⟩
      rw [hR] at he
      cases he
      cases herr
  · by_cases hc : (C.length / 2 : Int) - 50 <
        (P.length : Int) * 4 + ((msgBeginningText P).length : Int) * 4
    · have h4 : (C.length / 2 : Int) - 50 <
          4 * ((P.length : Int) + ((Nat.log 10 P.length + 2 : Nat) : Int)) := by omega
      refine ⟨fun ⟨R, hR⟩ => ?_, fun h => absurd h4 h⟩
      rw [Encode_tooSmall C P hc] at hR
      cases hR
    · have h4 : ¬ (C.length / 2 : Int) - 50 <
          4 * ((P.length : Int) + ((Nat.log 10 P.length + 2 : Nat) : Int)) := by omega
      obtain ⟨R, hR, _⟩ := Encode_fits C P hc
      exact ⟨fun _ => h4, fun _ => ⟨R, hR⟩⟩

theorem log_ten_small : Nat.log 10 0 = 0 ∧ Nat.log 10 2 = 0 ∧ Nat.log 10 10 = 1 :=
  ⟨Nat.log_of_lt (by norm_num), Nat.log_of_lt (by norm_num),
    Nat.log_eq_of_pow_le_of_lt_pow (by norm_num) (by norm_num)⟩

/-- Witness of C2, at three header lengths.  The empty payload has the header
"0|": the minimum is 116 bytes.  The payload "hi" has the header "2|": the
minimum is 132 bytes.  A payload of 10 bytes has the header "10|", three
bytes: the minimum is 204 bytes.  In each case the minimum succeeds and one
byte less gives the capacity error. -/
theorem capacity_boundary_witness :
    (msgBeginningText [] = [48, 124] ∧ msgBeginningText hi = [50, 124] ∧
      msgBeginningText tenBytes = [49, 48, 124]) ∧
    ((∃ R, Encode (List.replicate 116 7) [] = .ok ⟨R, some R, none⟩) ∧
      Encode (List.replicate 115 7) [] =
        .ok ⟨List.replicate 115 7, none, some .imageTooSmall⟩) ∧
    ((∃ R, Encode (List.replicate 132 7) hi = .ok ⟨R, some R, none⟩) ∧
      Encode (List.replicate 131 7) hi =
        .ok ⟨List.replicate 131 7, none, some .imageTooSmall⟩) ∧
    ((∃ R, Encode (List.replicate 204 7) tenBytes = .ok ⟨R, some R, none⟩) ∧
      Encode (List.replicate 203 7) tenBytes =
        .ok ⟨List.replicate 203 7, none, some .imageTooSmall⟩) :=
  ⟨⟨by decide, by decide, by decide⟩,
    ⟨(capacity_boundary (List.replicate 116 7) []).2.1
        (by rw [List.length_nil, log_ten_small.1]; decide),
      (capacity_boundary (List.replicate 115 7) []).2.2.1
        (by rw [List.length_nil, log_ten_small.1]; decide)⟩,
    ⟨(capacity_boundary (List.replicate 132 7) hi).2.1
        (by rw [show hi.length = 2 from rfl, log_ten_small.2.1]; decide),
      (capacity_boundary (List.replicate 131 7) hi).2.2.1
        (by rw [show hi.length = 2 from rfl, log_ten_small.2.1]; decide)⟩,
    ⟨(capacity_boundary (List.replicate 204 7) tenBytes).2.1
        (by rw [show tenBytes.length = 10 from rfl, log_ten_small.2.2]; decide),
      (capacity_boundary (List.replicate 203 7) tenBytes).2.2.1
        (by rw [show tenBytes.length = 10 from rfl, log_ten_small.2.2]; decide)⟩⟩

/-- Claim C3 (atomicity on failure): whenever `Encode(C, P)` returns the
capacity error, the caller's carrier holds exactly the bytes it held before
the call and the returned slice is nil. -/
theorem encode_failure_atomic (C P : List Nat) (e : Encoded)
    (h : Encode C P = .ok e) (herr : e.err = some .imageTooSmall) :
    e.file = C ∧ e.result = none := by
  by_cases hc : (C.length / 2 : Int) - 50 <
      (P.length : Int) * 4 + ((msgBeginningText P).length : Int) * 4
  · rw [Encode_tooSmall C P hc] at h
    cases h
    exact ⟨rfl, rfl⟩
  · obtain ⟨R, hR, _⟩ := Encode_fits C P hc
    rw [hR] at h
    cases h
    cases herr

/-- Witness of C3: "hi" does not fit in 131 bytes. -/
theorem encode_failure_atomic_witness :
    Encode (List.replicate 131 7) hi = .ok ⟨List.replicate 131 7, none, some .imageTooSmall⟩ ∧
    (⟨List.replicate 131 7, none, some .imageTooSmall⟩ : Encoded).file = List.replicate 131 7 ∧
    (⟨List.replicate 131 7, none, some .imageTooSmall⟩ : Encoded).result = none :=
  ⟨by decide, encode_failure_atomic (List.replicate 131 7) hi
    ⟨List.replicate 131 7, none, some .imageTooSmall⟩ (by decide) (by decide)⟩

theorem atoiDigits_some_digit (ds : List Nat) : ∀ (m n : Nat), atoiDigits ds m = some n →
    ∀ c ∈ ds, 48 ≤ c ∧ c ≤ 57 := by
  induction ds with
  | nil => intro m n _ c hc; cases hc
  | cons d ds ih =>
    intro m n h c hc
    rw [atoiDigits] at h
    by_cases hd : 48 ≤ d ∧ d ≤ 57
    · rw [if_pos hd] at h
      rw [List.mem_cons] at hc
      rcases hc with hc | hc
      · rw [hc]; exact hd
      · exact ih _ _ h c hc
    · rw [if_neg hd] at h
      cases h

/-- The function `Atoi` returns an error on every string that is not an optional sign and
then digits. -/
theorem Atoi_none_of_not_signed (s : List Nat) (h : ¬ IsSignedDecimal s) : Atoi s = none := by
  cases s with
  | nil => rfl
  | cons c t =>
    unfold IsSignedDecimal at h
    simp only at h
    unfold Atoi
    simp only
    by_cases he : (if c = 45 ∨ c = 43 then t else c :: t) = []
    · rw [if_pos he]
    · rw [if_neg he]
      cases ha : atoiDigits (if c = 45 ∨ c = 43 then t else c :: t) 0 with
      | none => rfl
      | some un => exact absurd ⟨he, atoiDigits_some_digit _ _ _ ha⟩ h

/-- The concrete run: "hi" hidden in 132 bytes that are all 255. -/
theorem Encode_ones132 : Encode ones132 hi = .ok ⟨ones132Hi, some ones132Hi, none⟩ := by
  decide

/-- What a successful `Encode` leaves in the carrier. -/
theorem Encode_ok_spec {C P : List Nat} {e : Encoded} (h : Encode C P = .ok e)
    (herr : e.err = none) :
    e.result = some e.file ∧ e.file.length = C.length ∧
    C.length / 2 + 4 * (frame P).length + 50 ≤ C.length ∧
    ∀ k, e.file[k]? =
      if C.length / 2 ≤ k ∧ k < C.length / 2 + 4 * (frame P).length then
        (C[k]?).map (stamp ((frame P).getD ((k - C.length / 2) / 4) 0)
          ((k - C.length / 2) % 4))
      else C[k]? := by
  have hc := Encode_ok_inv h herr
  obtain ⟨R, hR, hl, hg⟩ := Encode_fits C P hc
  rw [hR] at h
  cases h
  have hfl := frame_length P
  exact ⟨rfl, hl, by omega, hg⟩

/-- Counterexample to C4 as stated: in the 32-byte carrier `plusOneA` the
bytes read from offset 16 up to the first `|` are "+1", which is not a
non-empty sequence of decimal digits, and `Decode` returns the payload "A"
with a nil error. -/
theorem malformed_header_counterexample :
    ReadsAt plusOneA (plusOneA.length / 2) [43, 49] ∧ 124 ∉ [43, 49] ∧
    readOneChar (plusOneA.length / 2 + 4 * [43, 49].length) plusOneA = .ok 124 ∧
    ¬ IsDecimal (headerText [43, 49]) ∧
    ∀ spare : Nat, Decode spare plusOneA = .ok ([65], none) :=
  ⟨by decide, by decide, by decide, by decide, fun spare =>
    readSecret_frame spare plusOneA [43, 49] [65] (by decide) (by decide) (by decide)
      (by decide) (by decide) (by decide)⟩

/-- Claim C4, amended (malformed header): for every carrier in which the
groups read from `len(C)/2` up to the first delimiter decode to the
characters `cs`, whose string is not an optional sign `+` or `-` followed by a
non-empty sequence of ASCII decimal digits, `Decode` returns the format error
with an empty string, and no payload. -/
theorem malformed_header_rejected (C cs : List Nat)
    (hh : ReadsAt C (C.length / 2) cs) (hn : 124 ∉ cs)
    (hd : readOneChar (C.length / 2 + 4 * cs.length) C = .ok 124)
    (hs : ¬ IsSignedDecimal (headerText cs)) :
    ∀ spare : Nat, Decode spare C = .ok ([], some .badFormat) :=
  fun spare => readSecret_badFormat spare C cs hh hn hd (Atoi_none_of_not_signed _ hs)

/-- Witness of C4 amended: a header that is a lone `-`. -/
theorem malformed_header_rejected_witness :
    ReadsAt minusOnly (minusOnly.length / 2) [45] ∧ ¬ IsSignedDecimal (headerText [45]) ∧
    ∀ spare : Nat, Decode spare minusOnly = .ok ([], some .badFormat) :=
  ⟨by decide, by decide,
    malformed_header_rejected minusOnly [45] (by decide) (by decide) (by decide) (by decide)⟩

/-- Claim C5 (high-bit preservation): for every carrier `C` (a sequence of
bytes) and payload `P` for which `Encode` succeeds, the result is the caller's
buffer, it has the length of `C`, and at every index `i` the six high-order
bits are those of `C`: `result[i] >> 2 == C[i] >> 2`. -/
theorem high_bits_preserved (C P : List Nat) (e : Encoded) (hC : IsBytes C)
    (h : Encode C P = .ok e) (herr : e.err = none) :
    e.result = some e.file ∧ e.file.length = C.length ∧
    ∀ i : Nat, (e.file[i]?).map (fun b => b >>> 2) = (C[i]?).map (fun b => b >>> 2) := by
  obtain ⟨hr, hl, _, hg⟩ := Encode_ok_spec h herr
  refine ⟨hr, hl, fun i => ?_⟩
  rw [hg i]
  split
  · cases ho : C[i]? with
    | none => rfl
    | some o =>
      obtain ⟨hi, rfl⟩ := List.getElem?_eq_some.mp ho
      simp only [Option.map_some', stamp]
      rw [stamp_high _ _ (hC _ (List.getElem_mem hi))]
  · rfl

/-- Witness of C5: "hi" hidden in 132 bytes that are all 255. -/
theorem high_bits_preserved_witness :
    IsBytes ones132 ∧ Encode ones132 hi = .ok ⟨ones132Hi, some ones132Hi, none⟩ ∧
    ones132Hi.length = ones132.length ∧
    ∀ i : Nat, (ones132Hi[i]?).map (fun b => b >>> 2) = (ones132[i]?).map (fun b => b >>> 2) :=
  ⟨by decide, Encode_ones132,
    (high_bits_preserved ones132 hi ⟨ones132Hi, some ones132Hi, none⟩ (by decide)
      Encode_ones132 rfl).2⟩

/-- Claim C6 (write window): for every carrier `C` and payload `P` for which
`Encode` succeeds, with `start = len(C)/2` and `n = len(header(P)) + len(P)`,
every byte of the result at an index outside `[start, start + 4*n)` is the
byte of `C` at that index. -/
theorem write_window (C P : List Nat) (e : Encoded)
    (h : Encode C P = .ok e) (herr : e.err = none) :
    ∀ i : Nat, (i < C.length / 2 ∨
        C.length / 2 + 4 * ((msgBeginningText P).length + P.length) ≤ i) →
      e.file[i]? = C[i]? := by
  obtain ⟨_, _, _, hg⟩ := Encode_ok_spec h herr
  intro i hi
  have hfl := frame_length P
  rw [hg i, if_neg (by omega)]

/-- Witness of C6: hiding "hi" in 1000 zero bytes changes bytes in
`[500, 516)` only. -/
theorem write_window_witness :
    Encode zeros1000 hi = .ok ⟨zeros1000Hi, some zeros1000Hi, none⟩ ∧
    ∀ i : Nat, (i < 500 ∨ 516 ≤ i) → zeros1000Hi[i]? = zeros1000[i]? :=
  ⟨Encode_zeros1000,
    write_window zeros1000 hi ⟨zeros1000Hi, some zeros1000Hi, none⟩ Encode_zeros1000 rfl⟩

/-- Claim C7 (wire layout): for every carrier `C` and payload `P` for which
`Encode` succeeds, with `F` the ASCII decimal digits of `len(P)`, then `|`
(0x7C), then `P`, and `start = len(C)/2`: for every `k < len(F)` and `j` in
0..3 the result has a byte at `start + 4k + j` and its two low-order bits are
bits `2j, 2j+1` of `F[k]`. -/
theorem wire_layout (C P : List Nat) (e : Encoded)
    (h : Encode C P = .ok e) (herr : e.err = none) :
    ∀ k j, k < (Itoa P.length ++ [124] ++ P).length → j < 4 →
      (e.file[C.length / 2 + 4 * k + j]?).map (fun b => b &&& 3) =
        some (((Itoa P.length ++ [124] ++ P).getD k 0 >>> (2 * j)) &&& 3) := by
  obtain ⟨_, _, hb, hg⟩ := Encode_ok_spec h herr
  intro k j hk hj
  change k < (frame P).length at hk
  change _ = some (((frame P).getD k 0 >>> (2 * j)) &&& 3)
  have hi : C.length / 2 + 4 * k + j < C.length := by omega
  have e1 : (C.length / 2 + 4 * k + j - C.length / 2) / 4 = k := by omega
  have e2 : (C.length / 2 + 4 * k + j - C.length / 2) % 4 = j := by omega
  rw [hg, if_pos (by omega), List.getElem?_eq_getElem hi, e1, e2]
  simp only [Option.map_some', stamp]
  rw [stamp_low]

/-- Witness of C7: 1000 zero bytes with "hi" yield bytes 500..515 =
2,0,3,0, 0,3,3,1, 0,2,2,1, 1,2,2,1, the bit pairs of "2|hi". -/
theorem wire_layout_witness :
    Encode zeros1000 hi = .ok ⟨zeros1000Hi, some zeros1000Hi, none⟩ ∧
    (zeros1000Hi.drop 500).take 16 = [2, 0, 3, 0, 0, 3, 3, 1, 0, 2, 2, 1, 1, 2, 2, 1] ∧
    Itoa hi.length ++ [124] ++ hi = [50, 124, 104, 105] ∧
    ∀ k j, k < (Itoa hi.length ++ [124] ++ hi).length → j < 4 →
      (zeros1000Hi[zeros1000.length / 2 + 4 * k + j]?).map (fun b => b &&& 3) =
        some (((Itoa hi.length ++ [124] ++ hi).getD k 0 >>> (2 * j)) &&& 3) :=
  ⟨Encode_zeros1000, by decide, by decide,
    wire_layout zeros1000 hi ⟨zeros1000Hi, some zeros1000Hi, none⟩ Encode_zeros1000 rfl⟩

/-- Claim C8 (readByte inverts writeByte): for every carrier `C`, every index
`i` with `i + 4 <= len(C)` and every 8-bit value `v`, `hideOneChar(i, v, C)`
returns, and `readOneChar(i, C1)` on the carrier `C1` it leaves is `v`. -/
theorem read_inverts_write (C : List Nat) (i v : Nat) (hi : i + 4 ≤ C.length) (hv : v < 256) :
    ∃ C1, hideOneChar i v C = .ok C1 ∧ readOneChar i C1 = .ok v := by
  obtain ⟨C1, h1, _, hg⟩ := hideOneChar_spec i v C hi
  refine ⟨C1, h1, readOneChar_of_low i C1 v hv (fun j hj => ?_)⟩
  have hij : i + j < C.length := by omega
  refine ⟨stamp v j C[i + j], ?_, stamp_low _ _⟩
  have e : i + j - i = j := by omega
  rw [hg, if_pos (by omega), List.getElem?_eq_getElem hij, e]
  rfl

/-- Witness of C8: the byte `|` written at index 1 of a 6-byte carrier. -/
theorem read_inverts_write_witness :
    hideOneChar 1 124 [255, 0, 170, 85, 9, 6] = .ok [255, 0, 171, 87, 9, 6] ∧
    ∃ C1, hideOneChar 1 124 [255, 0, 170, 85, 9, 6] = .ok C1 ∧ readOneChar 1 C1 = .ok 124 :=
  ⟨by decide, read_inverts_write [255, 0, 170, 85, 9, 6] 1 124 (by decide) (by decide)⟩

/-- Claim C9 (Encode stays in bounds): for every carrier `C` (empty and very
short ones included) and every payload `P`, `Encode` either returns the
capacity error, leaving `C` as it was, or succeeds, and then every call of
`hideOneChar` it makes (for the character `ch` of the frame that comes after
the characters `a`, at the `writeIndex` `w` the write loop has reached after
`a`) has `w + 4 <= len(C) - 50` and returns without panic; the last 50 bytes
of the carrier are as before.  `Encode` never panics. -/
theorem encode_in_bounds (C P : List Nat) :
    Encode C P = .ok ⟨C, none, some .imageTooSmall⟩ ∨
    (∃ R, Encode C P = .ok ⟨R, some R, none⟩ ∧
      (∀ a ch b, frame P = a ++ ch :: b →
        ∃ w img, hideChars a (C.length / 2) C = .ok (w, img) ∧ img.length = C.length ∧
          w + 4 + 50 ≤ C.length ∧ ∃ img1, hideOneChar w ch img = .ok img1) ∧
      ∀ i : Nat, C.length - 50 ≤ i → R[i]? = C[i]?) := by
  by_cases hc : (C.length / 2 : Int) - 50 <
      (P.length : Int) * 4 + ((msgBeginningText P).length : Int) * 4
  · exact Or.inl (Encode_tooSmall C P hc)
  · obtain ⟨R, hR, _, hg⟩ := Encode_fits C P hc
    have hfl := frame_length P
    have hb : C.length / 2 + 4 * (frame P).length + 50 ≤ C.length := by omega
    refine Or.inr ⟨R, hR, fun a ch b hs => ?_, fun i hi => ?_⟩
    · have hl : (frame P).length = a.length + (b.length + 1) := by
        rw [hs, List.length_append, List.length_cons]
      obtain ⟨img, h1, l1, _⟩ := hideChars_spec a (C.length / 2) C (by omega)
      obtain ⟨img1, h2, _⟩ := hideOneChar_spec (C.length / 2 + 4 * a.length) ch img (by omega)
      exact ⟨_, img, h1, l1, by omega, img1, h2⟩
    · rw [hg i, if_neg (by omega)]

/-- Claim C10 (unterminated header): for every carrier `C` (the empty one
included) in which no 4-byte group at an offset `start + 4k` that lies fully
inside the buffer decodes to the delimiter, `start = len(C)/2`, `Decode` ends
with an index-out-of-range panic: it does not run forever, returns no payload
and does not return the format error. -/
theorem unterminated_header_panics (C : List Nat)
    (h : ∀ k, C.length / 2 + 4 * k + 4 ≤ C.length →
      readOneChar (C.length / 2 + 4 * k) C ≠ .ok 124) :
    ∀ spare : Nat, Decode spare C = .panic .indexOutOfRange := by
  intro spare
  unfold Decode readSecret
  rw [readHeaderLoop_unterminated C (C.length + 1) (C.length / 2) [] (by omega) (by omega) h]

/-- On a carrier whose bytes all have zero low bit pairs every group decodes
to 0. -/
theorem readOneChar_zero_low (C : List Nat) (i v : Nat) (hz : ∀ b ∈ C, b &&& 3 = 0)
    (h : readOneChar i C = .ok v) : v = 0 := by
  have hb := readOneChar_ok_bound h
  have h0 : i < C.length := by omega
  have h1 : i + 1 < C.length := by omega
  have h2 : i + 1 + 1 < C.length := by omega
  have h3 : i + 1 + 1 + 1 < C.length := by omega
  rw [readOneChar_eq i C C[i] C[i + 1] C[i + 1 + 1] C[i + 1 + 1 + 1]
    (List.getElem?_eq_getElem h0) (List.getElem?_eq_getElem h1) (List.getElem?_eq_getElem h2)
    (List.getElem?_eq_getElem h3), hz _ (List.getElem_mem h0), hz _ (List.getElem_mem h1),
    hz _ (List.getElem_mem h2), hz _ (List.getElem_mem h3)] at h
  cases h
  rfl

theorem zeros1000_no_delimiter (k : Nat) :
    readOneChar (zeros1000.length / 2 + 4 * k) zeros1000 ≠ .ok 124 := by
  intro h
  have := readOneChar_zero_low zeros1000 _ 124
    (fun b hb => by rw [List.eq_of_mem_replicate hb]; rfl) h
  omega

/-- Witness of C10: a carrier of 1000 zero bytes, and the empty carrier. -/
theorem unterminated_header_panics_witness :
    (∀ spare : Nat, Decode spare zeros1000 = .panic .indexOutOfRange) ∧
    ∀ spare : Nat, Decode spare [] = .panic .indexOutOfRange :=
  ⟨unterminated_header_panics zeros1000 (fun k _ => zeros1000_no_delimiter k),
    unterminated_header_panics [] (fun k hk => by simp at hk)⟩

/-! ## The carrier as state: `Decode` leaves it as it was -/

theorem readOneCharLoopSt_eq (n : Nat) : ∀ (j r c : Nat) (image : List Nat),
    readOneCharLoopSt n j r c image = (image, readOneCharLoop image n j r c) := by
  induction n with
  | zero => intro j r c image; rfl
  | succ n ih =>
    intro j r c image
    rw [readOneCharLoopSt, readOneCharLoop]
    cases image[r]? with
    | none => rfl
    | some b => exact ih _ _ _ _

theorem readOneCharSt_eq (i : Nat) (image : List Nat) :
    readOneCharSt i image = (image, readOneChar i image) :=
  readOneCharLoopSt_eq 4 0 i 0 image

theorem readHeaderLoopSt_eq (carrier : List Nat) (fuel : Nat) : ∀ (r : Nat) (acc : List Nat),
    readHeaderLoopSt fuel r acc carrier = (carrier, readHeaderLoop carrier fuel r acc) := by
  induction fuel with
  | zero => intro r acc; rfl
  | succ fuel ih =>
    intro r acc
    rw [readHeaderLoopSt, readHeaderLoop, readOneCharSt_eq]
    cases readOneChar r carrier with
    | ok ch =>
      simp only
      by_cases h : ch = 124
      · rw [if_pos h, if_pos h]
      · rw [if_neg h, if_neg h]; exact ih _ _
    | panic p => rfl
    | fuelOut => rfl

theorem readSecretLoopSt_eq (carrier : List Nat) (n : Nat) :
    ∀ (i r : Nat) (secret : List Nat),
    readSecretLoopSt n i r secret carrier = (carrier, readSecretLoop carrier n i r secret) := by
  induction n with
  | zero => intro i r secret; rfl
  | succ n ih =>
    intro i r secret
    rw [readSecretLoopSt, readSecretLoop, readOneCharSt_eq]
    cases readOneChar r carrier with
    | ok ch => exact ih _ _ _
    | panic p => rfl
    | fuelOut => rfl

theorem readSecretSt_eq (spare : Nat) (image : List Nat) :
    readSecretSt spare image = (image, readSecret spare image) := by
  unfold readSecretSt readSecret
  rw [readHeaderLoopSt_eq]
  cases readHeaderLoop image (image.length + 1) (image.length / 2) [] with
  | ok a =>
    obtain ⟨readIndex, msgLength⟩ := a
    simp only
    cases Atoi msgLength with
    | none => rfl
    | some length =>
      simp only
      cases makeBytes (image.length + spare) length with
      | ok secret =>
        simp only
        rw [readSecretLoopSt_eq]
        cases readSecretLoop image secret.length 0 readIndex secret with
        | ok s => rfl
        | panic p => rfl
        | fuelOut => rfl
      | panic p => rfl
      | fuelOut => rfl
  | panic p => rfl
  | fuelOut => rfl

/-- Claim C11 (non-mutation on read): for every carrier `C`, whether `Decode`
returns a payload, returns the format error or panics, the contents of `C`
after `Decode(C)` are the contents before the call; the outcome of the run
with the carrier as state is the outcome of `Decode`. -/
theorem decode_leaves_carrier (C : List Nat) :
    ∀ spare : Nat, (DecodeSt spare C).1 = C ∧ (DecodeSt spare C).2 = Decode spare C := by
  intro spare
  unfold DecodeSt Decode
  rw [readSecretSt_eq]
  exact ⟨rfl, rfl⟩

/-- Claim C12 (writeByte definition): for every carrier `C`, index `i` with
`i + 4 <= len(C)` and value `v` (8-bit or not), `hideOneChar(i, v, C)` returns and
leaves a carrier of the same length in which, for each `j` in 0..3, byte
`i + j` is `(C[i+j] & 0xFC) | ((v >> 2j) & 3)` (the lowest carrier byte holds
the least significant bit pair of `v`), and every byte at an index outside
`[i, i + 4)` is unchanged. -/
theorem hideOneChar_definition (C : List Nat) (i v : Nat) (hi : i + 4 ≤ C.length) :
    ∃ C1, hideOneChar i v C = .ok C1 ∧ C1.length = C.length ∧
      (∀ j, j < 4 → ∃ o, C[i + j]? = some o ∧
        C1[i + j]? = some ((o &&& 252) ||| ((v >>> (2 * j)) &&& 3))) ∧
      ∀ k : Nat, (k < i ∨ i + 4 ≤ k) → C1[k]? = C[k]? := by
  obtain ⟨C1, h1, hl, hg⟩ := hideOneChar_spec i v C hi
  refine ⟨C1, h1, hl, fun j hj => ?_, fun k hk => ?_⟩
  · have hij : i + j < C.length := by omega
    have e : i + j - i = j := by omega
    refine ⟨C[i + j], List.getElem?_eq_getElem hij, ?_⟩
    rw [hg, if_pos (by omega), List.getElem?_eq_getElem hij, e]
    rfl
  · rw [hg, if_neg (by omega)]

/-- Witness of C12: the byte `|` (0x7C) written at index 1 of a 6-byte carrier. -/
theorem hideOneChar_definition_witness :
    hideOneChar 1 124 [255, 0, 170, 85, 9, 6] = .ok [255, 0, 171, 87, 9, 6] ∧
    ∃ C1, hideOneChar 1 124 [255, 0, 170, 85, 9, 6] = .ok C1 ∧
      C1.length = [255, 0, 170, 85, 9, 6].length ∧
      (∀ j, j < 4 → ∃ o, [255, 0, 170, 85, 9, 6][1 + j]? = some o ∧
        C1[1 + j]? = some ((o &&& 252) ||| ((124 >>> (2 * j)) &&& 3))) ∧
      ∀ k : Nat, (k < 1 ∨ 1 + 4 ≤ k) → C1[k]? = [255, 0, 170, 85, 9, 6][k]? :=
  ⟨by decide, hideOneChar_definition [255, 0, 170, 85, 9, 6] 1 124 (by decide)⟩

theorem pair_shift_small : ∀ t < 4,
    (t <<< (0 * 2)) % 256 = t ∧ (t <<< ((0 + 1) * 2)) % 256 = t <<< 2 ∧
    (t <<< ((0 + 1 + 1) * 2)) % 256 = t <<< 4 ∧
    (t <<< ((0 + 1 + 1 + 1) * 2)) % 256 = t <<< 6 := by decide

theorem pack_lt : ∀ t0 < 4, ∀ t1 < 4, ∀ t2 < 4, ∀ t3 < 4,
    t0 ||| (t1 <<< 2) ||| (t2 <<< 4) ||| (t3 <<< 6) < 256 := by decide

/-- Claim C13 (readByte definition): for every carrier `C` and index `i` with
`i + 4 <= len(C)`, `readOneChar(i, C)` returns
`(C[i] & 3) | ((C[i+1] & 3) << 2) | ((C[i+2] & 3) << 4) | ((C[i+3] & 3) << 6)`,
computed without any truncation, and that value is below 256: the 8-bit
shifts of the code lose no bit. -/
theorem readOneChar_definition (C : List Nat) (i : Nat) (hi : i + 4 ≤ C.length) :
    ∃ b0 b1 b2 b3, C[i]? = some b0 ∧ C[i + 1]? = some b1 ∧ C[i + 2]? = some b2 ∧
      C[i + 3]? = some b3 ∧
      readOneChar i C = .ok
        ((b0 &&& 3) ||| ((b1 &&& 3) <<< 2) ||| ((b2 &&& 3) <<< 4) ||| ((b3 &&& 3) <<< 6)) ∧
      (b0 &&& 3) ||| ((b1 &&& 3) <<< 2) ||| ((b2 &&& 3) <<< 4) ||| ((b3 &&& 3) <<< 6) < 256 := by
  have h0 : i < C.length := by omega
  have h1 : i + 1 < C.length := by omega
  have h2 : i + 2 < C.length := by omega
  have h3 : i + 3 < C.length := by omega
  have m : ∀ b : Nat, b &&& 3 < 4 := fun b => by
    rw [and_three]; exact Nat.mod_lt _ (by norm_num)
  refine ⟨C[i], C[i + 1], C[i + 2], C[i + 3], List.getElem?_eq_getElem h0,
    List.getElem?_eq_getElem h1, List.getElem?_eq_getElem h2, List.getElem?_eq_getElem h3,
    ?_, pack_lt _ (m _) _ (m _) _ (m _) _ (m _)⟩
  rw [readOneChar_eq i C C[i] C[i + 1] C[i + 2] C[i + 3] (List.getElem?_eq_getElem h0)
    (List.getElem?_eq_getElem h1) (List.getElem?_eq_getElem h2) (List.getElem?_eq_getElem h3),
    (pair_shift_small _ (m C[i])).1, (pair_shift_small _ (m C[i + 1])).2.1,
    (pair_shift_small _ (m C[i + 2])).2.2.1, (pair_shift_small _ (m C[i + 3])).2.2.2,
    Nat.zero_or]

/-- Witness of C13: four bytes with all high bits set and low pairs 0, 3, 3, 1
read as `|` (0x7C = 124). -/
theorem readOneChar_definition_witness :
    readOneChar 1 [9, 252, 255, 255, 253] = .ok 124 ∧
    ∃ b0 b1 b2 b3, [9, 252, 255, 255, 253][1]? = some b0 ∧
      [9, 252, 255, 255, 253][1 + 1]? = some b1 ∧ [9, 252, 255, 255, 253][1 + 2]? = some b2 ∧
      [9, 252, 255, 255, 253][1 + 3]? = some b3 ∧
      readOneChar 1 [9, 252, 255, 255, 253] = .ok
        ((b0 &&& 3) ||| ((b1 &&& 3) <<< 2) ||| ((b2 &&& 3) <<< 4) ||| ((b3 &&& 3) <<< 6)) ∧
      (b0 &&& 3) ||| ((b1 &&& 3) <<< 2) ||| ((b2 &&& 3) <<< 4) ||| ((b3 &&& 3) <<< 6) < 256 :=
  ⟨by decide, readOneChar_definition [9, 252, 255, 255, 253] 1 (by decide)⟩

/-! ## Frames that `Encode` did not write -/

theorem atoiDigits_decimal (ds : List Nat) : ∀ m : Nat, (∀ c ∈ ds, 48 ≤ c ∧ c ≤ 57) →
    atoiDigits ds m = some (ds.foldl (fun acc c => acc * 10 + (c - 48)) m) := by
  induction ds with
  | nil => intro m _; rfl
  | cons d ds ih =>
    intro m h
    rw [atoiDigits, if_pos (h d (List.mem_cons_self d ds)), List.foldl_cons]
    exact ih _ (fun c hc => h c (List.mem_cons_of_mem d hc))

/-- The function `Atoi` on a string of digits whose value a 64-bit `int` holds. -/
theorem Atoi_decimal (ds : List Nat) (h : IsDecimal ds) (hv : decimalValue ds < 2 ^ 63) :
    Atoi ds = some (decimalValue ds : Int) := by
  obtain ⟨hne, hd⟩ := h
  have ha := atoiDigits_decimal ds 0 hd
  cases ds with
  | nil => exact absurd rfl hne
  | cons c t =>
    have hc := hd c (List.mem_cons_self c t)
    have h45 : c ≠ 45 := by omega
    have h43 : c ≠ 43 := by omega
    unfold decimalValue at hv ⊢
    simp only [Atoi, h45, h43, ha, or_self, if_false, reduceCtorEq, ge_iff_le]
    rw [if_neg (by omega)]

/-- The function `Atoi` on a string of digits whose value is too large for a
64-bit `int`. -/
theorem Atoi_decimal_range (ds : List Nat) (h : IsDecimal ds) (hv : 2 ^ 63 ≤ decimalValue ds) :
    Atoi ds = none := by
  obtain ⟨hne, hd⟩ := h
  have ha := atoiDigits_decimal ds 0 hd
  cases ds with
  | nil => exact absurd rfl hne
  | cons c t =>
    have hc := hd c (List.mem_cons_self c t)
    have h45 : c ≠ 45 := by omega
    have h43 : c ≠ 43 := by omega
    unfold decimalValue at hv
    simp only [Atoi, h45, h43, ha, or_self, if_false, reduceCtorEq, ge_iff_le]
    rw [if_pos (by omega)]

theorem headerText_decimal (ds : List Nat) (h : IsDecimal ds) : headerText ds = ds :=
  headerText_ascii ds (fun c hc => by have := h.2 c hc; omega)

theorem not_mem_decimal (ds : List Nat) (h : IsDecimal ds) : 124 ∉ ds :=
  fun m => by have := h.2 _ m; omega

/-- In bounds every group decodes to something. -/
theorem exists_ReadsAt (image : List Nat) (n : Nat) : ∀ r : Nat, r + 4 * n ≤ image.length →
    ∃ P : List Nat, P.length = n ∧ ReadsAt image r P := by
  induction n with
  | zero => intro r _; exact ⟨[], rfl, fun k hk => by simp at hk⟩
  | succ n ih =>
    intro r h
    rcases readOneChar_cases r image with ⟨_, v, hv⟩ | ⟨hb, _⟩
    · obtain ⟨P, hl, hp⟩ := ih (r + 4) (by omega)
      exact ⟨v :: P, by rw [List.length_cons, hl], (ReadsAt_cons image r v P).mpr ⟨hv, hp⟩⟩
    · omega

/-- The payload loop runs off the end of a carrier that is too short for the
`n` bytes it has to read. -/
theorem readSecretLoop_truncated (image : List Nat) (n : Nat) :
    ∀ (i r : Nat) (secret : List Nat), r ≤ image.length → image.length < r + 4 * n →
    readSecretLoop image n i r secret = .panic .indexOutOfRange := by
  induction n with
  | zero => intro i r secret h1 h2; omega
  | succ n ih =>
    intro i r secret h1 h2
    rw [readSecretLoop]
    rcases readOneChar_cases r image with ⟨hb, v, hv⟩ | ⟨_, hp⟩
    · rw [hv]
      exact ih _ _ _ hb (by omega)
    · rw [hp]

/-- The run of `readSecret` up to the allocation, on a carrier whose header is
the digit string `ds`. -/
theorem readSecret_decimal (spare : Nat) (image ds : List Nat)
    (hh : ReadsAt image (image.length / 2) ds) (hds : IsDecimal ds)
    (hd : readOneChar (image.length / 2 + 4 * ds.length) image = .ok 124)
    (hv : decimalValue ds < 2 ^ 63) :
    readSecret spare image =
      match makeBytes (image.length + spare) (decimalValue ds : Int) with
      | .ok secret =>
        match readSecretLoop image secret.length 0 (image.length / 2 + 4 * ds.length + 4)
          secret with
        | .ok secret1 => .ok (secret1, none)
        | .panic p => .panic p
        | .fuelOut => .fuelOut
      | .panic p => .panic p
      | .fuelOut => .fuelOut := by
  have hb := readOneChar_ok_bound hd
  have h1 := readHeaderLoop_frame image ds (image.length + 1) (image.length / 2) [] hh
    (not_mem_decimal ds hds) hd (by omega)
  simp only [List.nil_append] at h1
  unfold readSecret
  rw [h1]
  simp only
  rw [headerText_decimal ds hds, Atoi_decimal ds hds hv]

/-- Claim C14 (decode of a well-formed frame): for every carrier `C` (of a
length a Go slice can have) with `start = len(C)/2` in which the groups at
`start, start+4, ..., start+4(k-1)` decode to `k >= 1` ASCII decimal digits
`ds` of value `n`, the group at `start + 4k` decodes to `|`, and
`start + 4*(k + 1 + n) <= len(C)`, `Decode` returns with a nil error the `n`
bytes that `readOneChar` gives at the offsets `start + 4*(k+1+m)`,
`m = 0..n-1`, in order (the allocation of `n` bytes, fewer than the carrier
has, succeeds whatever the machine has to spare). -/
theorem decode_well_formed (C ds : List Nat) (hC : C.length ≤ maxAlloc) (hds : IsDecimal ds)
    (hh : ReadsAt C (C.length / 2) ds)
    (hd : readOneChar (C.length / 2 + 4 * ds.length) C = .ok 124)
    (hb : C.length / 2 + 4 * (ds.length + 1 + decimalValue ds) ≤ C.length) :
    ∃ P : List Nat, P.length = decimalValue ds ∧
      ReadsAt C (C.length / 2 + 4 * (ds.length + 1)) P ∧
      ∀ spare : Nat, Decode spare C = .ok (P, none) := by
  have hmax : decimalValue ds ≤ maxAlloc := by omega
  have h63 : decimalValue ds < 2 ^ 63 := by
    unfold maxAlloc at hmax
    omega
  obtain ⟨P, hl, hp⟩ := exists_ReadsAt C (decimalValue ds) (C.length / 2 + 4 * (ds.length + 1))
    (by omega)
  refine ⟨P, hl, hp, fun spare => ?_⟩
  have e : C.length / 2 + 4 * ds.length + 4 = C.length / 2 + 4 * (ds.length + 1) := by omega
  unfold Decode
  refine readSecret_frame spare C ds P hh (not_mem_decimal ds hds) hd ?_ (by omega) (e ▸ hp)
  rw [headerText_decimal ds hds, Atoi_decimal ds hds h63, hl]

/-- Witness of C14: the carrier `ones132Hi`, whose groups from 66 on hold
"2|hi", decodes to "hi". -/
theorem decode_well_formed_witness :
    IsDecimal [50] ∧ decimalValue [50] = 2 ∧ ReadsAt ones132Hi (ones132Hi.length / 2) [50] ∧
    ReadsAt ones132Hi (ones132Hi.length / 2 + 4 * ([50].length + 1)) hi ∧
    ∃ P : List Nat, P.length = decimalValue [50] ∧
      ReadsAt ones132Hi (ones132Hi.length / 2 + 4 * ([50].length + 1)) P ∧
      ∀ spare : Nat, Decode spare ones132Hi = .ok (P, none) :=
  ⟨by decide, by decide, by decide, by decide,
    decode_well_formed ones132Hi [50] (by decide) (by decide) (by decide) (by decide)
      (by decide)⟩

/-- The run of `readSecret` on a carrier whose header declares more bytes than
`makeslice` accepts. -/
theorem readSecret_decimal_tooLong (spare : Nat) (image ds : List Nat)
    (hh : ReadsAt image (image.length / 2) ds) (hds : IsDecimal ds)
    (hd : readOneChar (image.length / 2 + 4 * ds.length) image = .ok 124)
    (hv : decimalValue ds < 2 ^ 63) (hm : maxAlloc < decimalValue ds) :
    readSecret spare image = .panic .makesliceLenOutOfRange := by
  have h2 : makeBytes (image.length + spare) (decimalValue ds : Int) =
      .panic .makesliceLenOutOfRange := by
    unfold makeBytes
    rw [if_pos (by omega)]
  rw [readSecret_decimal spare image ds hh hds hd hv, h2]

/-- Counterexample to C15 as stated: the 160-byte carrier `hugeLength` holds
the header "9223372036854775807|", 19 digits that declare the largest 64-bit
`int`; the frame is truncated, and on every machine `Decode` ends in the
panic "makeslice: len out of range" of `make([]byte, length)`, not in an
index-out-of-range panic. -/
theorem truncated_frame_counterexample :
    IsDecimal maxIntDigits ∧ ReadsAt hugeLength (hugeLength.length / 2) maxIntDigits ∧
    readOneChar (hugeLength.length / 2 + 4 * maxIntDigits.length) hugeLength = .ok 124 ∧
    decimalValue maxIntDigits = 2 ^ 63 - 1 ∧
    hugeLength.length <
      hugeLength.length / 2 + 4 * (maxIntDigits.length + 1 + decimalValue maxIntDigits) ∧
    ∀ spare : Nat, Decode spare hugeLength = .panic .makesliceLenOutOfRange ∧
      Decode spare hugeLength ≠ .panic .indexOutOfRange :=
  ⟨by decide, by decide, by decide, by decide, by decide, fun spare => by
    have h : Decode spare hugeLength = .panic .makesliceLenOutOfRange :=
      readSecret_decimal_tooLong spare hugeLength maxIntDigits (by decide) (by decide)
        (by decide) (by decide) (by decide)
    rw [h]
    exact ⟨rfl, by decide⟩⟩

/-- Claim C15, amended (truncated frame): for every carrier `C` whose header
region at `start = len(C)/2` decodes to `k >= 1` decimal digits `ds` followed
by `|`, declaring a length `n` that a 64-bit `int` holds, with
`start + 4*(k + 1 + n) > len(C)`, `Decode` returns no payload.  When
`make([]byte, n)` succeeds (`n` is at most `maxAlloc`, the largest length
`makeslice` lets through, and the allocator can grant `n` bytes) the run ends
in the index-out-of-range panic; when `n` is at most `maxAlloc` and the
allocator cannot grant `n` bytes it ends in the fatal error "out of memory";
when `n` is above `maxAlloc` it ends in the panic "makeslice: len out of
range". -/
theorem truncated_frame_panics (spare : Nat) (C ds : List Nat) (hds : IsDecimal ds)
    (hh : ReadsAt C (C.length / 2) ds)
    (hd : readOneChar (C.length / 2 + 4 * ds.length) C = .ok 124)
    (hv : decimalValue ds < 2 ^ 63)
    (ht : C.length < C.length / 2 + 4 * (ds.length + 1 + decimalValue ds)) :
    (decimalValue ds ≤ maxAlloc → decimalValue ds ≤ C.length + spare →
      Decode spare C = .panic .indexOutOfRange) ∧
    (decimalValue ds ≤ maxAlloc → C.length + spare < decimalValue ds →
      Decode spare C = .panic .outOfMemory) ∧
    (maxAlloc < decimalValue ds → Decode spare C = .panic .makesliceLenOutOfRange) := by
  have hb := readOneChar_ok_bound hd
  have hrun := readSecret_decimal spare C ds hh hds hd hv
  unfold Decode
  refine ⟨fun hm ha => ?_, fun hm ha => ?_, fun hm => ?_⟩
  · have h2 : makeBytes (C.length + spare) (decimalValue ds : Int) =
        .ok (List.replicate (decimalValue ds) 0) := by
      unfold makeBytes
      rw [if_neg (by omega), if_neg (by omega)]
      simp
    rw [hrun, h2]
    simp only [List.length_replicate]
    rw [readSecretLoop_truncated C (decimalValue ds) 0 _ _ (by omega) (by omega)]
  · have h2 : makeBytes (C.length + spare) (decimalValue ds : Int) = .panic .outOfMemory := by
      unfold makeBytes
      rw [if_neg (by omega), if_pos (by omega)]
    rw [hrun, h2]
  · exact readSecret_decimal_tooLong spare C ds hh hds hd hv hm

/-- Witness of C15 amended: the 16-byte carrier `fiveCut` declares 5 bytes and
ends right after the delimiter (index out of range); the 24-byte carrier
`ninetyNineCut` declares 99 bytes, which an allocator with nothing to spare
beyond the 24 bytes cannot grant (out of memory) and one with 100 bytes to
spare can (index out of range). -/
theorem truncated_frame_panics_witness :
    IsDecimal [53] ∧ decimalValue [53] = 5 ∧ ReadsAt fiveCut (fiveCut.length / 2) [53] ∧
    Decode 0 fiveCut = .panic .indexOutOfRange ∧
    decimalValue [57, 57] = 99 ∧ ReadsAt ninetyNineCut (ninetyNineCut.length / 2) [57, 57] ∧
    Decode 0 ninetyNineCut = .panic .outOfMemory ∧
    Decode 100 ninetyNineCut = .panic .indexOutOfRange :=
  ⟨by decide, by decide, by decide,
    (truncated_frame_panics 0 fiveCut [53] (by decide) (by decide) (by decide) (by decide)
      (by decide)).1 (by decide) (by decide),
    by decide, by decide,
    (truncated_frame_panics 0 ninetyNineCut [57, 57] (by decide) (by decide) (by decide)
      (by decide) (by decide)).2.1 (by decide) (by decide),
    (truncated_frame_panics 100 ninetyNineCut [57, 57] (by decide) (by decide) (by decide)
      (by decide) (by decide)).1 (by decide) (by decide)⟩

/-- Claim C16 (empty header): for every carrier `C` whose first embedded byte,
the group at `len(C)/2`, decodes to the delimiter `|` (so the accumulated
length string is empty), the group lies inside the buffer,
`len(C)/2 + 4 <= len(C)`, and `Decode` returns the format error and an empty
result. -/
theorem empty_header_rejected (C : List Nat)
    (hd : readOneChar (C.length / 2) C = .ok 124) :
    C.length / 2 + 4 ≤ C.length ∧ ∀ spare : Nat, Decode spare C = .ok ([], some .badFormat) :=
  ⟨readOneChar_ok_bound hd, fun spare =>
    readSecret_badFormat spare C [] (fun k hk => by simp at hk) (by simp) hd rfl⟩

/-- Witness of C16: the 8-byte carrier `barOnly`. -/
theorem empty_header_rejected_witness :
    readOneChar (barOnly.length / 2) barOnly = .ok 124 ∧
    barOnly.length / 2 + 4 ≤ barOnly.length ∧
    ∀ spare : Nat, Decode spare barOnly = .ok ([], some .badFormat) :=
  ⟨by decide, empty_header_rejected barOnly (by decide)⟩

/-! ## Idempotence and the low bit plane -/

/-- Stamping a stamped byte again changes nothing. -/
theorem stamp_idem (ch d o : Nat) : stamp ch d (stamp ch d o) = stamp ch d o := by
  unfold stamp
  have e : (o &&& 252 ||| (ch >>> (2 * d)) &&& 3) &&& 252 = o &&& 252 := by
    rw [Nat.and_comm, Nat.and_or_distrib_left, Nat.and_comm 252 (o &&& 252), Nat.and_assoc o,
      Nat.and_self, Nat.and_comm 252 ((ch >>> (2 * d)) &&& 3), Nat.and_assoc (ch >>> (2 * d)),
      show (3 : Nat) &&& 252 = 0 from rfl, Nat.and_zero, Nat.or_zero]
  rw [e]

/-- Claim C17 (Encode is idempotent): for every carrier `C` and payload `P`
for which `Encode(C, P)` succeeds, `Encode(Encode(C, P), P)` succeeds as well
and its result is byte for byte the result of `Encode(C, P)`. -/
theorem encode_idempotent (C P : List Nat) (e : Encoded)
    (h : Encode C P = .ok e) (herr : e.err = none) :
    Encode e.file P = .ok e := by
  obtain ⟨hr, hl, _, hg⟩ := Encode_ok_spec h herr
  have hc := Encode_ok_inv h herr
  rw [← hl] at hc
  obtain ⟨R, hR, _, hg2⟩ := Encode_fits e.file P hc
  have hRe : R = e.file := by
    apply List.ext_getElem?
    intro k
    rw [hg2 k, hl]
    by_cases hk : C.length / 2 ≤ k ∧ k < C.length / 2 + 4 * (frame P).length
    · rw [if_pos hk, hg k, if_pos hk]
      cases C[k]? with
      | none => rfl
      | some o => simp only [Option.map_some', stamp_idem]
    · rw [if_neg hk]
  rw [hR, hRe]
  obtain ⟨f, r, er⟩ := e
  simp only at hr herr
  rw [hr, herr]

/-- Witness of C17: hiding "hi" again in `ones132Hi` leaves `ones132Hi`. -/
theorem encode_idempotent_witness :
    Encode ones132 hi = .ok ⟨ones132Hi, some ones132Hi, none⟩ ∧
    Encode ones132Hi hi = .ok ⟨ones132Hi, some ones132Hi, none⟩ :=
  ⟨Encode_ones132,
    encode_idempotent ones132 hi ⟨ones132Hi, some ones132Hi, none⟩ Encode_ones132 rfl⟩

theorem low_eq_of_map {C1 C2 : List Nat} {k b1 b2 : Nat}
    (h : (C1[k]?).map (fun b => b &&& 3) = (C2[k]?).map (fun b => b &&& 3))
    (h1 : C1[k]? = some b1) (h2 : C2[k]? = some b2) : b1 &&& 3 = b2 &&& 3 := by
  rw [h1, h2] at h
  simpa using h

theorem readOneChar_congr (C1 C2 : List Nat) (hl : C1.length = C2.length) (s : Nat)
    (hb : ∀ i : Nat, s ≤ i → (C1[i]?).map (fun b => b &&& 3) = (C2[i]?).map (fun b => b &&& 3))
    (i : Nat) (hi : s ≤ i) : readOneChar i C1 = readOneChar i C2 := by
  rcases readOneChar_cases i C1 with ⟨h1, _⟩ | ⟨h1, hp1⟩
  · have a0 : i < C1.length := by omega
    have a1 : i + 1 < C1.length := by omega
    have a2 : i + 1 + 1 < C1.length := by omega
    have a3 : i + 1 + 1 + 1 < C1.length := by omega
    have b0 : i < C2.length := by omega
    have b1 : i + 1 < C2.length := by omega
    have b2 : i + 1 + 1 < C2.length := by omega
    have b3 : i + 1 + 1 + 1 < C2.length := by omega
    have c0 := List.getElem?_eq_getElem a0
    have c1 := List.getElem?_eq_getElem a1
    have c2 := List.getElem?_eq_getElem a2
    have c3 := List.getElem?_eq_getElem a3
    have d0 := List.getElem?_eq_getElem b0
    have d1 := List.getElem?_eq_getElem b1
    have d2 := List.getElem?_eq_getElem b2
    have d3 := List.getElem?_eq_getElem b3
    rw [readOneChar_eq i C1 _ _ _ _ c0 c1 c2 c3, readOneChar_eq i C2 _ _ _ _ d0 d1 d2 d3,
      low_eq_of_map (hb i (by omega)) c0 d0, low_eq_of_map (hb (i + 1) (by omega)) c1 d1,
      low_eq_of_map (hb (i + 1 + 1) (by omega)) c2 d2,
      low_eq_of_map (hb (i + 1 + 1 + 1) (by omega)) c3 d3]
  · rcases readOneChar_cases i C2 with ⟨h2, _⟩ | ⟨_, hp2⟩
    · omega
    · rw [hp1, hp2]

theorem readHeaderLoop_congr (C1 C2 : List Nat) (s : Nat)
    (hr : ∀ i : Nat, s ≤ i → readOneChar i C1 = readOneChar i C2) (fuel : Nat) :
    ∀ (r : Nat) (acc : List Nat), s ≤ r →
    readHeaderLoop C1 fuel r acc = readHeaderLoop C2 fuel r acc := by
  induction fuel with
  | zero => intro r acc _; rfl
  | succ fuel ih =>
    intro r acc h
    rw [readHeaderLoop, readHeaderLoop, hr r h]
    cases readOneChar r C2 with
    | ok ch =>
      simp only
      by_cases hc : ch = 124
      · rw [if_pos hc, if_pos hc]
      · rw [if_neg hc, if_neg hc]; exact ih _ _ (by omega)
    | panic p => rfl
    | fuelOut => rfl

theorem readSecretLoop_congr (C1 C2 : List Nat) (s : Nat)
    (hr : ∀ i : Nat, s ≤ i → readOneChar i C1 = readOneChar i C2) (n : Nat) :
    ∀ (i r : Nat) (secret : List Nat), s ≤ r →
    readSecretLoop C1 n i r secret = readSecretLoop C2 n i r secret := by
  induction n with
  | zero => intro i r secret _; rfl
  | succ n ih =>
    intro i r secret h
    rw [readSecretLoop, readSecretLoop, hr r h]
    cases readOneChar r C2 with
    | ok ch => exact ih _ _ _ (by omega)
    | panic p => rfl
    | fuelOut => rfl

theorem readHeaderLoop_index (image : List Nat) (fuel : Nat) :
    ∀ (r : Nat) (acc : List Nat) (r1 : Nat) (m : List Nat),
    readHeaderLoop image fuel r acc = .ok (r1, m) → r ≤ r1 := by
  induction fuel with
  | zero => intro r acc r1 m h; cases h
  | succ fuel ih =>
    intro r acc r1 m h
    rw [readHeaderLoop] at h
    cases hc : readOneChar r image with
    | ok ch =>
      rw [hc] at h
      simp only at h
      by_cases h124 : ch = 124
      · rw [if_pos h124] at h
        cases h
        omega
      · rw [if_neg h124] at h
        have := ih _ _ _ _ h
        omega
    | panic p => rw [hc] at h; cases h
    | fuelOut => rw [hc] at h; cases h

/-- Claim C18 (Decode depends only on the low bit plane of the second half):
for every two carriers `C1` and `C2` of equal length with
`C1[i] & 3 == C2[i] & 3` at every index `i >= len(C1)/2`, `Decode(C1)` and
`Decode(C2)` have the same outcome: the same payload, the same error or the
same panic.  The first half of the carrier and the six high-order bits of
every byte have no influence. -/
theorem decode_low_plane (C1 C2 : List Nat) (hl : C1.length = C2.length)
    (hb : ∀ i : Nat, C1.length / 2 ≤ i →
      (C1[i]?).map (fun b => b &&& 3) = (C2[i]?).map (fun b => b &&& 3)) :
    ∀ spare : Nat, Decode spare C1 = Decode spare C2 := by
  intro spare
  have hr := readOneChar_congr C1 C2 hl (C1.length / 2) hb
  unfold Decode readSecret
  rw [← hl, readHeaderLoop_congr C1 C2 (C1.length / 2) hr _ _ _ (Nat.le_refl _)]
  cases hh : readHeaderLoop C2 (C1.length + 1) (C1.length / 2) [] with
  | ok a =>
    obtain ⟨readIndex, msgLength⟩ := a
    have hi : C1.length / 2 ≤ readIndex := by
      rw [← readHeaderLoop_congr C1 C2 (C1.length / 2) hr _ _ _ (Nat.le_refl _)] at hh
      exact readHeaderLoop_index C1 _ _ _ _ _ hh
    simp only
    cases Atoi msgLength with
    | none => rfl
    | some length =>
      simp only
      cases makeBytes (C1.length + spare) length with
      | ok secret =>
        simp only
        rw [readSecretLoop_congr C1 C2 (C1.length / 2) hr _ _ _ _ hi]
      | panic p => rfl
      | fuelOut => rfl
  | panic p => rfl
  | fuelOut => rfl

/-- Witness of C18: `plusOneA` and `plusOneAHigh` differ in their first half
and in their high bits only, and both decode to "A". -/
theorem decode_low_plane_witness :
    plusOneA ≠ plusOneAHigh ∧ Decode 0 plusOneA = .ok ([65], none) ∧
    ∀ spare : Nat, Decode spare plusOneA = Decode spare plusOneAHigh :=
  ⟨by decide, by decide,
    decode_low_plane plusOneA plusOneAHigh (by decide) (fun i hi => by
      have hs : plusOneA.length / 2 = 16 := by decide
      have h1 : plusOneA.length = 32 := by decide
      have h2 : plusOneAHigh.length = 32 := by decide
      rw [hs] at hi
      by_cases h : i < 32
      · interval_cases i <;> decide
      · rw [List.getElem?_eq_none (by omega), List.getElem?_eq_none (by omega)])⟩

end Steg
